import Mathlib

/-!
# Verification of the `tvp_lr2` Turing-machine core

A shallow embedding of the Rust sources (`rule.rs`, `ruleset.rs`, `tape.rs`,
`turing.rs`, `transition.rs`) of the `tvp_lr2` repository, together with
theorems settling the specification claims about them.

Rust strings are modelled as `List Char`; `isize` values as `Int` (no
overflow is modelled on index arithmetic — buffers in scope are far below
`isize::MAX`), while the `as usize` cast in buffer accesses is modelled
faithfully as reduction modulo `2 ^ 64`.  `HashMap` is modelled as an
association list; its iteration order, which Rust leaves unspecified, is
passed explicitly where the source iterates over `keys()`.
-/

deriving instance DecidableEq for Except

namespace Tvp

/-! ## String primitives (models of the Rust `str` operations used) -/

/-- Model of Rust `char::is_whitespace` (Unicode `White_Space`). -/
def isWs (c : Char) : Bool :=
  let n := c.toNat
  (0x9 ≤ n && n ≤ 0xD) || n = 0x20 || n = 0x85 || n = 0xA0 || n = 0x1680 ||
  (0x2000 ≤ n && n ≤ 0x200A) || n = 0x2028 || n = 0x2029 || n = 0x202F ||
  n = 0x205F || n = 0x3000

/-- Model of Rust `str::trim_start`. -/
def trimLeft : List Char → List Char
  | [] => []
  | c :: cs => if isWs c then trimLeft cs else c :: cs

/-- Model of Rust `str::trim_end`. -/
def trimRight (s : List Char) : List Char :=
  ((s.reverse).dropWhile (fun c => isWs c)).reverse

/-- Model of Rust `str::trim`. -/
def trim (s : List Char) : List Char := trimLeft (trimRight s)

/-- Model of Rust `str::split(sep)`: always yields at least one piece;
`""` splits to `[""]`. -/
def splitOnChar (sep : Char) : List Char → List (List Char)
  | [] => [[]]
  | c :: cs =>
    if c = sep then [] :: splitOnChar sep cs
    else
      match splitOnChar sep cs with
      | [] => [[c]]
      | p :: ps => (c :: p) :: ps

/-- Model of `str::trim_end_matches(|c| c == '|')`. -/
def trimEndPipes (s : List Char) : List Char :=
  ((s.reverse).dropWhile (fun c => c = '|')).reverse

/-- Strip one trailing `'\r'`, as Rust `str::lines` does per line. -/
def stripCR (s : List Char) : List Char :=
  if s.getLast? = some '\r' then s.dropLast else s

/-- Model of Rust `str::lines`: split on `'\n'`, drop a final empty piece,
strip a trailing `'\r'` from each line. -/
def linesOf (s : List Char) : List (List Char) :=
  if s = [] then []
  else
    let parts := splitOnChar '\n' s
    let parts := if parts.getLast? = some [] then parts.dropLast else parts
    parts.map stripCR

/-- `startsWithSeq pat s` is true when `pat` is an initial segment of `s`. -/
def startsWithSeq : List Char → List Char → Bool
  | [], _ => true
  | _ :: _, [] => false
  | p :: ps, c :: cs => p = c && startsWithSeq ps cs

/-- Model of Rust `str::contains(pat)` for a literal pattern. -/
def containsSeq (pat : List Char) : List Char → Bool
  | [] => startsWithSeq pat []
  | c :: cs => startsWithSeq pat (c :: cs) || containsSeq pat cs

/-- Decimal digit characters `'0'`–`'9'` used by the `u32` renderer. -/
def digitChar (d : Nat) : Char :=
  match d with
  | 0 => '0' | 1 => '1' | 2 => '2' | 3 => '3' | 4 => '4'
  | 5 => '5' | 6 => '6' | 7 => '7' | 8 => '8' | _ => '9'

/-- Fuel-driven digit accumulator for the decimal rendering of a `u32`. -/
def natCharsGo : Nat → Nat → List Char → List Char
  | 0, _, acc => acc
  | fuel + 1, n, acc =>
    if n < 10 then digitChar n :: acc
    else natCharsGo fuel (n / 10) (digitChar (n % 10) :: acc)

/-- Model of the Rust `u32` `Display` (decimal, no sign). -/
def natChars (n : Nat) : List Char := natCharsGo (n + 1) n []

/-- Numeric value of a decimal digit character, if it is one. -/
def digitVal? (c : Char) : Option Nat :=
  if '0' ≤ c ∧ c ≤ '9' then some (c.toNat - 48) else none

/-- Left-to-right accumulation of decimal digits. -/
def parseDigitsAux : Nat → List Char → Option Nat
  | acc, [] => some acc
  | acc, c :: cs =>
    match digitVal? c with
    | some d => parseDigitsAux (acc * 10 + d) cs
    | none => none

/-- Digits-only parse; empty input is rejected. -/
def parseDigits : List Char → Option Nat
  | [] => none
  | c :: cs => parseDigitsAux 0 (c :: cs)

/-- Strip the optional leading `'+'` accepted by Rust `u32::from_str`. -/
def stripPlus : List Char → List Char
  | '+' :: rest => rest
  | other => other

/-- Model of Rust `u32::from_str`: an optional leading `'+'`, then at least
one decimal digit, with the value required to fit in 32 bits. -/
def parseU32 (s : List Char) : Option Nat :=
  match parseDigits (stripPlus s) with
  | some v => if v < 2 ^ 32 then some v else none
  | none => none

/-- Model of Rust `char::from_str`: succeeds exactly on one-character input. -/
def parseChar : List Char → Option Char
  | [c] => some c
  | _ => none

/-- Rust `[..].join(sep)` / the separator-joined rendering of pieces. -/
def joinSep (sep : List Char) : List (List Char) → List Char
  | [] => []
  | [x] => x
  | x :: xs => x ++ sep ++ joinSep sep xs

/-! ## `rule.rs` -/

/-- `Move` from `rule.rs`. -/
inductive Move where
  | Right
  | Left
  | Stop
deriving DecidableEq, Repr

/-- `RuleParseError` from `rule.rs`. -/
inductive RuleParseError where
  | InvalidRule
  | InvalidMove
  | InvalidState
deriving DecidableEq, Repr

/-- `Rule` from `rule.rs`; `RuleState` (`u32`) is modelled as `Nat` with the
32-bit bound enforced where the source parses it. -/
structure Rule where
  write : Char
  mov : Move
  next_state : Nat
deriving DecidableEq, Repr

/-- The movement marker of `impl Display for Move`. -/
def Move.toChar : Move → Char
  | .Right => '>'
  | .Left => '<'
  | .Stop => '!'

/-- `Move::is_terminal`. -/
def Move.is_terminal (m : Move) : Bool := m = Move.Stop

/-- `impl Display for Rule`: write symbol, movement marker, decimal state. -/
def Rule.display (r : Rule) : List Char :=
  r.write :: r.mov.toChar :: natChars r.next_state

/-- `impl FromStr for Rule` from `rule.rs`. -/
def Rule.from_str (s : List Char) : Except RuleParseError Rule :=
  match s with
  | [] => .error .InvalidRule
  | [_] => .error .InvalidMove
  | w :: m :: rest =>
    match (if m = '>' then some Move.Right
           else if m = '<' then some Move.Left
           else if m = '!' then some Move.Stop
           else none) with
    | none => .error .InvalidRule
    | some mov =>
      match parseU32 rest with
      | none => .error .InvalidState
      | some st => .ok ⟨w, mov, st⟩

/-! ## `tape.rs` -/

/-- The blank symbol `SPACE` from `tape.rs`. -/
def SPACE : Char := '_'

/-- `Tape` from `tape.rs`: buffer, buffer index (`isize`), head offset. -/
structure Tape where
  data : List Char
  index : Int
  head_offset : Int
deriving DecidableEq, Repr

/-- The `as usize` cast applied to an `isize` buffer index. -/
def usizeOfInt (i : Int) : Nat := (i % (2 : Int) ^ 64).toNat

/-- `Tape::new` from `tape.rs` (the three `head0.cmp(&0)` branches). -/
def Tape.new (data : List Char) (head data_start_at : Int) : Tape :=
  let head0 := head - data_start_at
  if head0 = 0 then
    { data := if data.isEmpty then [SPACE] else data
      index := 0, head_offset := head }
  else if head0 < 0 then
    { data := List.replicate (-head0).toNat SPACE ++ data
      index := 0, head_offset := head }
  else
    { data := data ++ List.replicate (max 0 (head0 + 1 - (data.length : Int))).toNat SPACE
      index := head0, head_offset := data_start_at }

/-- `Tape::read`: the symbol under the buffer index, or blank when the
(usize-cast) index is out of range. -/
def Tape.read (t : Tape) : Char :=
  t.data.getD (usizeOfInt t.index) SPACE

/-- `Tape::write` (private): overwrite the cell at the buffer index. -/
def Tape.writeSym (t : Tape) (c : Char) : Tape :=
  { t with data := t.data.set (usizeOfInt t.index) c }

/-- `Tape::move_head` (private). -/
def Tape.move_head (t : Tape) (mov : Move) : Tape :=
  match mov with
  | .Right => { t with index := t.index + 1 }
  | .Left => { t with index := t.index - 1 }
  | .Stop => t

/-- `Tape::extend` (private): left-pad and shift the offset when the index is
negative; right-pad when it is past the end; otherwise do nothing. -/
def Tape.extend (t : Tape) : Tape :=
  if t.index < 0 then
    { data := List.replicate (-t.index).toNat SPACE ++ t.data
      index := 0
      head_offset := t.head_offset + t.index }
  else if 0 < t.index ∧ (t.data.length : Int) < t.index + 1 then
    { t with data := t.data ++ List.replicate (t.index - t.data.length + 1).toNat SPACE }
  else t

/-- `Tape::apply_rule`: write, move, re-extend. -/
def Tape.apply_rule (t : Tape) (r : Rule) : Tape :=
  ((t.writeSym r.write).move_head r.mov).extend

/-- `Tape::head`: the reported logical head position. -/
def Tape.head (t : Tape) : Int := t.index - t.head_offset

/-- `Tape::set_head`: relocate the buffer index, then re-extend. -/
def Tape.set_head (t : Tape) (head : Int) : Tape :=
  Tape.extend { t with index := head + t.head_offset }

/-- `impl FromStr for Tape`: always `Ok`, building from the trimmed text. -/
def Tape.from_str (s : List Char) : Except Unit Tape :=
  .ok (Tape.new (trim s) 0 0)

/-! ## Tape operation sequences (for the history-quantified claims) -/

/-- A public mutation of a `Tape`: `apply_rule` or `set_head`. -/
inductive TapeOp where
  | apply_rule (r : Rule)
  | set_head (p : Int)
deriving DecidableEq, Repr

/-- Apply one operation. -/
def applyOp (t : Tape) : TapeOp → Tape
  | .apply_rule r => t.apply_rule r
  | .set_head p => t.set_head p

/-- Run a sequence of operations left to right. -/
def runOps (t : Tape) : List TapeOp → Tape
  | [] => t
  | op :: rest => runOps (applyOp t op) rest

/-- `true` when no operation of the sequence triggers left buffer growth
(equivalently: `head_offset` never changes along the trace). -/
def noLeftGrowth (t : Tape) : List TapeOp → Bool
  | [] => true
  | op :: rest =>
    let t' := applyOp t op
    (t'.head_offset == t.head_offset) && noLeftGrowth t' rest

/-- Head displacement of one movement. -/
def moveDelta : Move → Int
  | .Right => 1
  | .Left => -1
  | .Stop => 0

/-- The logical head position implied by a sequence of movements: `Right`
adds one, `Left` subtracts one, writes and `Stop` change nothing, and
`set_head p` makes it `p`. -/
def impliedHead (h : Int) : List TapeOp → Int
  | [] => h
  | .apply_rule r :: rest => impliedHead (h + moveDelta r.mov) rest
  | .set_head p :: rest => impliedHead p rest

/-- Buffer positions written by the sequence (the usize-cast buffer index at
each `apply_rule`); with an all-zero offset history these are exactly the
logical positions written. -/
def writeIndicesOf (t : Tape) : List TapeOp → List Nat
  | [] => []
  | .apply_rule r :: rest => usizeOfInt t.index :: writeIndicesOf (t.apply_rule r) rest
  | .set_head p :: rest => writeIndicesOf (t.set_head p) rest

/-! ## `ruleset.rs` -/

/-- `RulesetError` from `ruleset.rs`. -/
inductive RulesetError where
  | RuleNotFound (state : Nat) (symbol : Char)
deriving DecidableEq, Repr

/-- `RulesetParseError` from `ruleset.rs`; string payloads are `List Char`. -/
inductive RulesetParseError where
  | InvalidRuleset
  | InvalidState (state : List Char)
  | InvalidSymbol (row : Nat)
  | DuplicateState (state : Nat)
  | DuplicateSymbol (symbol : Char)
  | InvalidFormat (row : Nat) (col : Nat)
  | InvalidRule (row : Nat) (col : Nat) (format : List Char)
deriving DecidableEq, Repr

/-- Association-list lookup, modelling `HashMap::get`. -/
def lookupA {α β : Type} [DecidableEq α] : List (α × β) → α → Option β
  | [], _ => none
  | (k, v) :: rest, key => if k = key then some v else lookupA rest key

/-- Association-list insert/overwrite, modelling `HashMap::insert`. -/
def updateAssoc {α β : Type} [DecidableEq α] : List (α × β) → α → β → List (α × β)
  | [], k, v => [(k, v)]
  | (k', v') :: rest, k, v =>
    if k' = k then (k, v) :: rest else (k', v') :: updateAssoc rest k v

/-- The two-level transition table `HashMap<RuleState, HashMap<char, Rule>>`. -/
abbrev RulesMap := List (Nat × List (Char × Rule))

/-- `rules.get_mut(&state).unwrap().insert(symbol, rule)`; when the state key
is absent this is a no-op (the source would panic there, but every call site
passes a key inserted by the header loop). -/
def insertRule : RulesMap → Nat → Char → Rule → RulesMap
  | [], _, _, _ => []
  | (s, m) :: rest, state, sym, rule =>
    if s = state then (s, updateAssoc m sym rule) :: rest
    else (s, m) :: insertRule rest state sym rule

/-- `Ruleset` from `ruleset.rs`. -/
structure Ruleset where
  rules : RulesMap
  alphabet : List Char
  states : List Nat
deriving DecidableEq, Repr

/-- Two-level lookup into the table. -/
def lookup2 (rules : RulesMap) (state : Nat) (symbol : Char) : Option Rule :=
  (lookupA rules state).bind (fun m => lookupA m symbol)

/-- `Ruleset::find`. -/
def Ruleset.find (r : Ruleset) (state : Nat) (symbol : Char) : Except RulesetError Rule :=
  match lookup2 r.rules state symbol with
  | some rule => .ok rule
  | none => .error (.RuleNotFound state symbol)

/-- The header loop of `Ruleset::from_str`: parse each (already trimmed)
header cell as a state, rejecting duplicates. -/
def parseHeaderStates : List (List Char) → RulesMap → List Nat →
    Except RulesetParseError (RulesMap × List Nat)
  | [], rules, states => .ok (rules, states)
  | cell :: rest, rules, states =>
    match parseU32 cell with
    | none => .error (.InvalidState cell)
    | some state =>
      if (lookupA rules state).isSome then .error (.DuplicateState state)
      else parseHeaderStates rest (rules ++ [(state, [])]) (states ++ [state])

/-- The rule-cell loop of a body row: cells are matched positionally to the
header states; error payloads carry the raw (untrimmed) cell text. -/
def parseCellsLoop (states : List Nat) (symbol : Char) (ind : Nat) :
    Nat → RulesMap → List (List Char) → Except RulesetParseError RulesMap
  | _, rules, [] => .ok rules
  | i, rules, cell :: rest =>
    match states.get? i with
    | none => .error (.InvalidFormat ind i)
    | some state =>
      match Rule.from_str (trim cell) with
      | .error _ => .error (.InvalidRule ind i cell)
      | .ok rule => parseCellsLoop states symbol ind (i + 1) (insertRule rules state symbol rule) rest

/-- The body loop of `Ruleset::from_str`: one line per alphabet symbol, with
the Markdown separator heuristic applied to the first body line only. -/
def parseRowsLoop (states : List Nat) :
    Nat → RulesMap → List Char → List (List Char) → Except RulesetParseError Ruleset
  | _, rules, alphabet, [] => .ok ⟨rules, alphabet, states⟩
  | ind, rules, alphabet, line :: rest =>
    if ind = 0 ∧ (containsSeq [':', '-'] line || containsSeq ['-', '-'] line) then
      parseRowsLoop states (ind + 1) rules alphabet rest
    else
      match (splitOnChar '|' (trimEndPipes line)).drop 1 |>.take (states.length + 1) with
      | [] => .error (.InvalidFormat ind 0)
      | symCell :: ruleCells =>
        match parseChar (trim symCell) with
        | none => .error (.InvalidSymbol ind)
        | some symbol =>
          if alphabet.contains symbol then .error (.DuplicateSymbol symbol)
          else
            match parseCellsLoop states symbol ind 0 rules ruleCells with
            | .error e => .error e
            | .ok rules2 => parseRowsLoop states (ind + 1) rules2 (alphabet ++ [symbol]) rest

/-- `impl FromStr for Ruleset`. -/
def Ruleset.from_str (s : List Char) : Except RulesetParseError Ruleset :=
  match (linesOf s).dropWhile (fun l => (trim l).isEmpty) with
  | [] => .error .InvalidRuleset
  | header :: body =>
    match parseHeaderStates (((splitOnChar '|' (trimEndPipes header)).drop 2).map trim) [] [] with
    | .error e => .error e
    | .ok (rules, states) => parseRowsLoop states 0 rules [] body

/-- `impl Display for Ruleset`.  The source iterates `self.rules.keys()`,
whose order Rust's `HashMap` leaves unspecified (but keeps stable across the
repeated iterations of one rendering); that enumeration is passed here as
the explicit `keys` list, required elsewhere to be a permutation of the
stored key set. -/
def Ruleset.display (keys : List Nat) (r : Ruleset) : List Char :=
  "|   | ".data ++ joinSep " | ".data (keys.map natChars) ++ "|\n|:-:|".data ++
  (keys.map (fun _ => ":-:|".data)).flatten ++ "\n".data ++
  (r.alphabet.map (fun symbol =>
    "| ".data ++ [symbol] ++ " | ".data ++
    joinSep " | ".data (keys.map (fun state =>
      match lookup2 r.rules state symbol with
      | some rule => rule.display
      | none => "     ".data)) ++
    "|\n".data)).flatten

/-- Every `(state, symbol)` pair of `states() × alphabet()` is bound. -/
def fullyBoundB (r : Ruleset) : Bool :=
  r.states.all (fun s => r.alphabet.all (fun c => (lookup2 r.rules s c).isSome))

/-! ## `transition.rs` and `turing.rs` -/

/-- `Transition` from `transition.rs`: pre-step state, pre-step tape
snapshot, selected rule. -/
structure Transition where
  state : Nat
  tape : Tape
  rule : Rule
deriving DecidableEq, Repr

/-- `TuringError` from `turing.rs`. -/
inductive TuringError where
  | RuleNotFound (rule_error : RulesetError)
deriving DecidableEq, Repr

/-- `Turing` from `turing.rs`. -/
structure Turing where
  state : Nat
  tape : Tape
  rules : Ruleset
deriving DecidableEq, Repr

/-- `Turing::next_transition`: read the current symbol, look the pair up,
wrap a lookup failure in `RuleNotFound`, otherwise snapshot a `Transition`. -/
def Turing.next_transition (t : Turing) : Except TuringError Transition :=
  match t.rules.find t.state t.tape.read with
  | .error e => .error (.RuleNotFound e)
  | .ok rule => .ok ⟨t.state, t.tape, rule⟩

/-- A call of `next_transition` on `&self`: the method borrows the engine
immutably, so the engine value after the call is the engine value before it;
the pair makes that non-mutation an explicit proposition. -/
def Turing.next_transition_call (t : Turing) :
    (Except TuringError Transition) × Turing :=
  (t.next_transition, t)

/-- `Turing::apply_transition`: take the rule's next state and apply the
rule to the engine's live tape. -/
def Turing.apply_transition (t : Turing) (tr : Transition) : Turing :=
  { t with state := tr.rule.next_state, tape := t.tape.apply_rule tr.rule }

/-- The driver loop of `test_turing` in `turing.rs`: while `limit > 0`,
compute and apply a transition, stop (keeping `limit`) when the applied
rule's movement is terminal, else decrement `limit`; `none` models the
`expect` panic on a failed transition. -/
def runLoop : Nat → Turing → Option (Nat × Turing)
  | 0, t => some (0, t)
  | limit + 1, t =>
    match t.next_transition with
    | .error _ => none
    | .ok tr =>
      let t' := t.apply_transition tr
      if tr.rule.mov.is_terminal then some (limit + 1, t')
      else runLoop limit t'

/-! ## The end-to-end example of `test_turing` -/

/-- The 11-state/12-symbol multiplication-by-5-plus-addition ruleset text
from `test_turing` in `turing.rs`. -/
def mulTable : String :=
"|  | 0 | 1 | 2 | 3 | 4 | 5 | 6 | 7 | 8 | 9 | 10 |
| :--- | :--- | :--- | :--- | :--- | :--- | :--- | :--- | :--- | :--- | :--- | :--- |
| 1 | 5<0 | 6<0 | 7<0 | 8<0 | 9<0 | 0<6 | 1<6 | 2>8 | 1>8 | 1>8 | 1!0 |
| 2 | 0<1 | 1<1 | 2<1 | 3<1 | 4<1 | 1<6 | 2<6 | 3>8 | 2>8 | 2>8 | 2!0 |
| 3 | 5<1 | 6<1 | 7<1 | 8<1 | 9<1 | 2<6 | 3<6 | 4>8 | 3>8 | 3>8 | 3!0 |
| 4 | 0<2 | 1<2 | 2<2 | 3<2 | 4<2 | 3<6 | 4<6 | 5>8 | 4>8 | 4>8 | 4!0 |
| 5 | 5<2 | 6<2 | 7<2 | 8<2 | 9<2 | 4<6 | 5<6 | 6>8 | 5>8 | 5>8 | 5!0 |
| 6 | 0<3 | 1<3 | 2<3 | 3<3 | 4<3 | 5<6 | 6<6 | 7>8 | 6>8 | 6>8 | 6!0 |
| 7 | 5<3 | 6<3 | 7<3 | 8<3 | 9<3 | 6<6 | 7<6 | 8>8 | 7>8 | 7>8 | 7!0 |
| 8 | 0<4 | 1<4 | 2<4 | 3<4 | 4<4 | 7<6 | 8<6 | 9>8 | 8>8 | 8>8 | 8!0 |
| 9 | 5<4 | 6<4 | 7<4 | 8<4 | 9<4 | 8<6 | 9<6 | 0<7 | 9>8 | 9>8 | 9!0 |
| 0 | 0<0 | 1<0 | 2<0 | 3<0 | 4<0 | 9<5 | 0<6 | 1>8 | 0>8 | +>9 | 0!0 |
| + | +!0 | +!0 | +!0 | +!0 | +!0 | _<10 | +<7 | +<7 | +>9 | +>9 | _<10 |
| _ | _>8 | 1<0 | 2<0 | 3<0 | 4<0 | _!0 | _!0 | 1>8 | _<5 | _<5 | _!0 |"

/-- Outcome of the `test_turing` run: remaining limit and final buffer, or
`none` when the ruleset fails to parse or a transition fails. -/
def c3Result : Option (Nat × List Char) :=
  match Ruleset.from_str mulTable.data with
  | .error _ => none
  | .ok rs =>
    (runLoop 1000 ⟨0, Tape.new "123+19".data 2 0, rs⟩).map
      (fun p => (p.1, p.2.tape.data))

/-! ## Decimal digit lemmas -/

lemma digitChar_mem (d : Nat) :
    digitChar d ∈ ['0', '1', '2', '3', '4', '5', '6', '7', '8', '9'] := by
  unfold digitChar
  split <;> decide

lemma digitVal_digitChar {d : Nat} (h : d < 10) : digitVal? (digitChar d) = some d := by
  interval_cases d <;> decide

lemma natCharsGo_acc (fuel : Nat) : ∀ (n : Nat) (acc : List Char),
    natCharsGo fuel n acc = natCharsGo fuel n [] ++ acc := by
  induction fuel with
  | zero => intro n acc; simp [natCharsGo]
  | succ f ih =>
    intro n acc
    simp only [natCharsGo]
    by_cases h : n < 10
    · simp [h]
    · rw [if_neg h, if_neg h, ih (n / 10) (digitChar (n % 10) :: acc),
        ih (n / 10) [digitChar (n % 10)]]
      simp

lemma natCharsGo_ne_nil {fuel n : Nat} (acc : List Char) (h : n < fuel) :
    natCharsGo fuel n acc ≠ [] := by
  cases fuel with
  | zero => omega
  | succ f =>
    simp only [natCharsGo]
    by_cases h10 : n < 10
    · simp [h10]
    · rw [if_neg h10, natCharsGo_acc]
      simp

lemma natChars_ne_nil (n : Nat) : natChars n ≠ [] :=
  natCharsGo_ne_nil [] (by omega)

lemma mem_natCharsGo (fuel : Nat) : ∀ (n : Nat) (acc : List Char) (c : Char),
    c ∈ natCharsGo fuel n acc →
    c ∈ acc ∨ c ∈ ['0', '1', '2', '3', '4', '5', '6', '7', '8', '9'] := by
  induction fuel with
  | zero => intro n acc c h; exact .inl h
  | succ f ih =>
    intro n acc c h
    simp only [natCharsGo] at h
    by_cases h10 : n < 10
    · rw [if_pos h10] at h
      rcases List.mem_cons.mp h with h | h
      · exact .inr (h ▸ digitChar_mem n)
      · exact .inl h
    · rw [if_neg h10] at h
      rcases ih (n / 10) (digitChar (n % 10) :: acc) c h with h | h
      · rcases List.mem_cons.mp h with h | h
        · exact .inr (h ▸ digitChar_mem (n % 10))
        · exact .inl h
      · exact .inr h

lemma mem_natChars {n : Nat} {c : Char} (h : c ∈ natChars n) :
    c ∈ ['0', '1', '2', '3', '4', '5', '6', '7', '8', '9'] := by
  rcases mem_natCharsGo (n + 1) n [] c h with h | h
  · simp at h
  · exact h

lemma parseDigitsAux_natCharsGo (fuel : Nat) : ∀ (n : Nat), n < fuel →
    ∀ (a : Nat) (acc : List Char),
    ∃ k, 0 < k ∧ n < 10 ^ k ∧
      parseDigitsAux a (natCharsGo fuel n acc) = parseDigitsAux (a * 10 ^ k + n) acc := by
  induction fuel with
  | zero => intro n h; omega
  | succ f ih =>
    intro n hn a acc
    simp only [natCharsGo]
    by_cases h : n < 10
    · refine ⟨1, by omega, by omega, ?_⟩
      rw [if_pos h]
      simp [parseDigitsAux, digitVal_digitChar h]
    · have hd : n / 10 < f := by omega
      obtain ⟨k, hk0, hkn, hrec⟩ := ih (n / 10) hd a (digitChar (n % 10) :: acc)
      refine ⟨k + 1, by omega, ?_, ?_⟩
      · have hp : (10 : Nat) ^ (k + 1) = 10 ^ k * 10 := pow_succ 10 k
        omega
      · rw [if_neg h, hrec]
        simp only [parseDigitsAux, digitVal_digitChar (Nat.mod_lt n (by omega))]
        have hdm : 10 * (n / 10) + n % 10 = n := Nat.div_add_mod n 10
        congr 1
        calc (a * 10 ^ k + n / 10) * 10 + n % 10
            = a * (10 ^ k * 10) + (10 * (n / 10) + n % 10) := by ring
          _ = a * 10 ^ (k + 1) + n := by rw [hdm, ← pow_succ]

lemma parseDigits_natChars (n : Nat) : parseDigits (natChars n) = some n := by
  obtain ⟨k, _, _, h⟩ := parseDigitsAux_natCharsGo (n + 1) n (by omega) 0 []
  have hform : parseDigitsAux 0 (natChars n) = some n := by
    rw [natChars, h]
    simp [parseDigitsAux]
  cases hcs : natChars n with
  | nil => exact absurd hcs (natChars_ne_nil n)
  | cons c cs =>
    rw [parseDigits, ← hcs, hform]

lemma parseU32_natChars {n : Nat} (h : n < 2 ^ 32) : parseU32 (natChars n) = some n := by
  have hsp : stripPlus (natChars n) = natChars n := by
    cases hcs : natChars n with
    | nil => rfl
    | cons c cs =>
      have hc := mem_natChars (hcs ▸ List.mem_cons_self c cs)
      fin_cases hc <;> rfl
  unfold parseU32
  rw [hsp, parseDigits_natChars n]
  show (if n < 2 ^ 32 then some n else none) = some n
  rw [if_pos h]

/-! ## `Rule` render/parse lemmas -/

lemma rule_from_str_display (r : Rule) (h : r.next_state < 2 ^ 32) :
    Rule.from_str (Rule.display r) = .ok r := by
  obtain ⟨w, m, n⟩ := r
  show Rule.from_str (w :: m.toChar :: natChars n) = .ok ⟨w, m, n⟩
  cases m <;>
    simp [Rule.from_str, Move.toChar, parseU32_natChars h]

/-- C7: for every valid Rule (any write symbol, any movement, any `u32`
state), parsing the rendered text — write symbol, movement marker, decimal
state, no separators — yields the same Rule back, whitespace write symbols
included. -/
theorem c7_rule_roundtrip (w : Char) (m : Move) (n : Nat) (h : n < 2 ^ 32) :
    Rule.from_str (Rule.display ⟨w, m, n⟩) = .ok ⟨w, m, n⟩ :=
  rule_from_str_display ⟨w, m, n⟩ h

/-- Witness for C7 at a whitespace write symbol. -/
theorem c7_rule_roundtrip_witness :
    7 < 2 ^ 32 ∧
      Rule.from_str (Rule.display ⟨' ', Move.Left, 7⟩) = .ok ⟨' ', Move.Left, 7⟩ :=
  ⟨by decide, c7_rule_roundtrip ' ' Move.Left 7 (by decide)⟩

/-- C8: the error classification of `Rule` parsing — empty input is
`InvalidRule`; a single character is `InvalidMove`; two or more characters
with a second character outside `>`, `<`, `!` is `InvalidRule`; a valid
marker followed by text that does not parse as an unsigned integer is
`InvalidState`. -/
theorem c8_rule_error_classification (s : List Char) :
    (s = [] → Rule.from_str s = .error .InvalidRule) ∧
    (s.length = 1 → Rule.from_str s = .error .InvalidMove) ∧
    (∀ w m rest, s = w :: m :: rest → m ≠ '>' → m ≠ '<' → m ≠ '!' →
      Rule.from_str s = .error .InvalidRule) ∧
    (∀ w m rest, s = w :: m :: rest → (m = '>' ∨ m = '<' ∨ m = '!') →
      parseU32 rest = none → Rule.from_str s = .error .InvalidState) := by
  refine ⟨?_, ?_, ?_, ?_⟩
  · rintro rfl; rfl
  · intro h
    match s, h with
    | [c], _ => rfl
  · rintro w m rest rfl h1 h2 h3
    simp [Rule.from_str, h1, h2, h3]
  · rintro w m rest rfl hm hp
    rcases hm with rfl | rfl | rfl <;> simp [Rule.from_str, hp]

/-- Witness for C8: one concrete input per error class. -/
theorem c8_rule_error_classification_witness :
    Rule.from_str [] = .error .InvalidRule ∧
    Rule.from_str ['<'] = .error .InvalidMove ∧
    Rule.from_str ['q', 'w', 'e'] = .error .InvalidRule ∧
    Rule.from_str ['a', '<', ' ', '1'] = .error .InvalidState :=
  ⟨(c8_rule_error_classification []).1 rfl,
   (c8_rule_error_classification ['<']).2.1 rfl,
   (c8_rule_error_classification ['q', 'w', 'e']).2.2.1 'q' 'w' ['e'] rfl
     (by decide) (by decide) (by decide),
   (c8_rule_error_classification ['a', '<', ' ', '1']).2.2.2 'a' '<' [' ', '1'] rfl
     (.inr (.inl rfl)) (by decide)⟩

/-! ## C3: the end-to-end multiplication example -/

/-- C3: from the 11-state/12-symbol multiplication ruleset and the tape
`"123+19"` with head at logical position 2 in state 0, the driver loop of
`test_turing` halts via a `Stop` rule with the buffer equal to
`"_634____"` and remaining limit `830 = 1000 - 170`, i.e. after exactly 170
counted (non-terminal) steps; a remaining limit above zero shows the loop
ended on the terminal branch, not by exhausting the limit or on an error. -/
theorem c3_end_to_end : c3Result = some (830, "_634____".data) ∧ 830 ≠ 0 := by
  constructor
  · decide
  · decide

/-! ## C6: `next_transition` error wrapping and purity -/

/-- C6: a `next_transition` call never mutates the engine, and when the
current `(state, symbol)` pair is unbound it returns `RuleNotFound` wrapping
the ruleset's lookup error. -/
theorem c6_next_transition_pure (t : Turing) :
    t.next_transition_call.2 = t ∧
    ∀ e, t.rules.find t.state t.tape.read = .error e →
      t.next_transition_call.1 = .error (.RuleNotFound e) := by
  refine ⟨rfl, fun e h => ?_⟩
  simp [Turing.next_transition_call, Turing.next_transition, h]

/-- Witness for C6 on an engine with an empty ruleset. -/
theorem c6_next_transition_pure_witness :
    (Turing.mk 0 (Tape.new [] 0 0) ⟨[], [], []⟩).rules.find 0
        (Turing.mk 0 (Tape.new [] 0 0) ⟨[], [], []⟩).tape.read =
      .error (.RuleNotFound 0 '_') ∧
    (Turing.mk 0 (Tape.new [] 0 0) ⟨[], [], []⟩).next_transition_call.2 =
      Turing.mk 0 (Tape.new [] 0 0) ⟨[], [], []⟩ ∧
    (Turing.mk 0 (Tape.new [] 0 0) ⟨[], [], []⟩).next_transition_call.1 =
      .error (.RuleNotFound (.RuleNotFound 0 '_')) :=
  ⟨by decide,
   (c6_next_transition_pure _).1,
   (c6_next_transition_pure _).2 (.RuleNotFound 0 '_') (by decide)⟩

/-! ## C10: `Tape` parsing is total -/

/-- C10: parsing a `Tape` from a string never fails — the result is always
`Ok` of the tape built from the trimmed characters with logical head 0 and
data start 0, and an empty or all-whitespace input yields the single-blank
tape. -/
theorem c10_tape_from_str_total (s : List Char) :
    Tape.from_str s = .ok (Tape.new (trim s) 0 0) ∧
    (trim s = [] → Tape.new (trim s) 0 0 = ⟨[SPACE], 0, 0⟩) := by
  refine ⟨rfl, fun h => ?_⟩
  rw [h]
  decide

/-- Witness for C10 at an all-whitespace input. -/
theorem c10_tape_from_str_total_witness :
    Tape.from_str "  ".data = .ok (Tape.new (trim "  ".data) 0 0) ∧
    Tape.new (trim "  ".data) 0 0 = ⟨[SPACE], 0, 0⟩ :=
  ⟨(c10_tape_from_str_total "  ".data).1,
   (c10_tape_from_str_total "  ".data).2 (by decide)⟩

/-! ## C1: head tracking -/

/-- Refuting input for C1: on the tape built from `"a"` with head 0, one
`apply_rule` with a `Left` movement triggers left buffer growth (the write
lands at logical 0, growth prepends one blank and shifts the offset), after
which `head()` reports `1` instead of the `-1` the claim implies for a
single `Left` movement from head 0. -/
theorem c1_counterexample :
    Tape.head (Tape.new ['a'] 0 0) = 0 ∧
    Tape.head (Tape.apply_rule (Tape.new ['a'] 0 0) ⟨'x', Move.Left, 0⟩) = 1 ∧
    (1 : Int) ≠ -1 := by
  refine ⟨by decide, by decide, by decide⟩

lemma extend_of_nonneg (t : Tape) (h : 0 ≤ t.index) :
    t.extend.index = t.index ∧ t.extend.head_offset = t.head_offset := by
  unfold Tape.extend
  rw [if_neg (by omega)]
  split <;> simp

lemma extend_offset_of_neg (t : Tape) (h : t.index < 0) :
    t.extend.head_offset = t.head_offset + t.index := by
  unfold Tape.extend
  rw [if_pos h]

lemma move_head_index (t : Tape) (m : Move) :
    (t.move_head m).index = t.index + moveDelta m := by
  cases m <;> simp [Tape.move_head, moveDelta, Int.sub_eq_add_neg]

lemma move_head_offset (t : Tape) (m : Move) :
    (t.move_head m).head_offset = t.head_offset := by
  cases m <;> rfl

lemma applyOp_head (t : Tape) (op : TapeOp)
    (hoff : (applyOp t op).head_offset = t.head_offset) :
    (applyOp t op).head =
      (match op with
       | .apply_rule r => t.head + moveDelta r.mov
       | .set_head p => p) := by
  cases op with
  | apply_rule r =>
    have hidx : ((t.writeSym r.write).move_head r.mov).index = t.index + moveDelta r.mov := by
      rw [move_head_index]; rfl
    have hof1 : ((t.writeSym r.write).move_head r.mov).head_offset = t.head_offset := by
      rw [move_head_offset]; rfl
    have hoff' : ((t.writeSym r.write).move_head r.mov).extend.head_offset
        = t.head_offset := hoff
    show ((t.writeSym r.write).move_head r.mov).extend.head = t.head + moveDelta r.mov
    rcases le_or_lt 0 ((t.writeSym r.write).move_head r.mov).index with hge | hlt
    · obtain ⟨h1, h2⟩ := extend_of_nonneg _ hge
      simp only [Tape.head, h1, h2, hidx, hof1]
      ring
    · rw [extend_offset_of_neg _ hlt, hof1] at hoff'
      omega
  | set_head p =>
    have hoff' : (Tape.extend { t with index := p + t.head_offset }).head_offset
        = t.head_offset := hoff
    show (Tape.extend { t with index := p + t.head_offset }).head = p
    rcases le_or_lt 0 (Tape.mk t.data (p + t.head_offset) t.head_offset).index with hge | hlt
    · obtain ⟨h1, h2⟩ := extend_of_nonneg _ hge
      simp only [Tape.head, h1, h2]
      ring
    · rw [extend_offset_of_neg _ hlt] at hoff'
      simp only at hoff' hlt
      omega

/-- C1 (amended): for every tape and every `apply_rule`/`set_head` sequence
during which no left buffer growth occurs (equivalently, `head_offset`
never changes), the reported `head()` after the sequence equals the
position implied by the movements: `Right` adds 1, `Left` subtracts 1,
`Stop` and writes change nothing, `set_head(p)` makes it `p`.  (Left
growth, by contrast, flips the sign of the offset adjustment and breaks the
correspondence — see the counterexample.) -/
theorem c1_head_tracking (t : Tape) (ops : List TapeOp)
    (h : noLeftGrowth t ops = true) :
    (runOps t ops).head = impliedHead t.head ops := by
  induction ops generalizing t with
  | nil => rfl
  | cons op rest ih =>
    simp only [noLeftGrowth, Bool.and_eq_true, beq_iff_eq] at h
    obtain ⟨h1, h2⟩ := h
    have hstep := applyOp_head t op h1
    cases op with
    | apply_rule r =>
      show (runOps (applyOp t (.apply_rule r)) rest).head = impliedHead (t.head + moveDelta r.mov) rest
      rw [ih _ h2, hstep]
    | set_head p =>
      show (runOps (applyOp t (.set_head p)) rest).head = impliedHead p rest
      rw [ih _ h2, hstep]

/-- Witness for C1 on a concrete three-operation history with right growth. -/
theorem c1_head_tracking_witness :
    noLeftGrowth (Tape.new "abc".data 0 0)
        [.apply_rule ⟨'x', Move.Right, 0⟩, .set_head 5, .apply_rule ⟨'y', Move.Left, 1⟩] = true ∧
    (runOps (Tape.new "abc".data 0 0)
        [.apply_rule ⟨'x', Move.Right, 0⟩, .set_head 5, .apply_rule ⟨'y', Move.Left, 1⟩]).head =
      impliedHead (Tape.new "abc".data 0 0).head
        [.apply_rule ⟨'x', Move.Right, 0⟩, .set_head 5, .apply_rule ⟨'y', Move.Left, 1⟩] :=
  ⟨by decide, c1_head_tracking _ _ (by decide)⟩

/-! ## C9: blank reads -/

lemma noLeftGrowth_cons {t : Tape} {op : TapeOp} {rest : List TapeOp}
    (h : noLeftGrowth t (op :: rest) = true) :
    (applyOp t op).head_offset = t.head_offset ∧ noLeftGrowth (applyOp t op) rest = true := by
  simp only [noLeftGrowth, Bool.and_eq_true, beq_iff_eq] at h
  exact h

lemma runOps_offset {ops : List TapeOp} : ∀ {t : Tape}, noLeftGrowth t ops = true →
    (runOps t ops).head_offset = t.head_offset := by
  induction ops with
  | nil => intro t _; rfl
  | cons op rest ih =>
    intro t h
    obtain ⟨h1, h2⟩ := noLeftGrowth_cons h
    show (runOps (applyOp t op) rest).head_offset = t.head_offset
    rw [ih h2, h1]

lemma usizeOfInt_of_nonneg {p : Int} (h0 : 0 ≤ p) (h64 : p < 2 ^ 64) :
    usizeOfInt p = p.toNat := by
  unfold usizeOfInt
  rw [Int.emod_eq_of_lt h0 h64]

lemma getD_append_blank (l : List Char) (k j : Nat) :
    (l ++ List.replicate k SPACE).getD j SPACE = l.getD j SPACE := by
  rcases lt_or_le j l.length with hj | hj
  · rw [List.getD_eq_getElem?_getD, List.getD_eq_getElem?_getD, List.getElem?_append,
      if_pos hj]
  · rw [List.getD_eq_default _ _ hj, List.getD_eq_getElem?_getD,
      List.getElem?_append_right hj, List.getElem?_replicate]
    split <;> rfl

lemma extend_getD_of_nonneg (t : Tape) (h : 0 ≤ t.index) (j : Nat) :
    t.extend.data.getD j SPACE = t.data.getD j SPACE := by
  unfold Tape.extend
  rw [if_neg (by omega)]
  split
  · exact getD_append_blank t.data _ j
  · rfl

lemma apply_rule_getD_blank (t : Tape) (r : Rule) (j : Nat)
    (hoff : (t.apply_rule r).head_offset = t.head_offset)
    (hne : usizeOfInt t.index ≠ j)
    (hblank : t.data.getD j SPACE = SPACE) :
    (t.apply_rule r).data.getD j SPACE = SPACE := by
  have hof1 : ((t.writeSym r.write).move_head r.mov).head_offset = t.head_offset := by
    rw [move_head_offset]; rfl
  have hoff' : ((t.writeSym r.write).move_head r.mov).extend.head_offset
      = t.head_offset := hoff
  have hge : 0 ≤ ((t.writeSym r.write).move_head r.mov).index := by
    rcases le_or_lt 0 ((t.writeSym r.write).move_head r.mov).index with hge | hlt
    · exact hge
    · rw [extend_offset_of_neg _ hlt, hof1] at hoff'
      omega
  show ((t.writeSym r.write).move_head r.mov).extend.data.getD j SPACE = SPACE
  rw [extend_getD_of_nonneg _ hge j]
  have hdata : ((t.writeSym r.write).move_head r.mov).data
      = t.data.set (usizeOfInt t.index) r.write := by
    cases r.mov <;> rfl
  rw [hdata, List.getD_eq_getElem?_getD, List.getElem?_set_ne hne,
    ← List.getD_eq_getElem?_getD, hblank]

lemma set_head_getD_blank (t : Tape) (p : Int) (j : Nat)
    (hoff : (t.set_head p).head_offset = t.head_offset)
    (hblank : t.data.getD j SPACE = SPACE) :
    (t.set_head p).data.getD j SPACE = SPACE := by
  have hge : 0 ≤ (Tape.mk t.data (p + t.head_offset) t.head_offset).index := by
    rcases le_or_lt 0 (p + t.head_offset) with hge | hlt
    · exact hge
    · have hoff' : (Tape.extend { t with index := p + t.head_offset }).head_offset
          = t.head_offset := hoff
      rw [extend_offset_of_neg _ hlt] at hoff'
      simp only at hoff'
      omega
  show (Tape.extend { t with index := p + t.head_offset }).data.getD j SPACE = SPACE
  rw [extend_getD_of_nonneg _ hge j]
  exact hblank

lemma blank_invariant (ops : List TapeOp) : ∀ (t : Tape) (j : Nat),
    noLeftGrowth t ops = true →
    (∀ i ∈ writeIndicesOf t ops, i ≠ j) →
    t.data.getD j SPACE = SPACE →
    (runOps t ops).data.getD j SPACE = SPACE := by
  induction ops with
  | nil => intro t j _ _ hb; exact hb
  | cons op rest ih =>
    intro t j hng hw hblank
    obtain ⟨hoff, hng'⟩ := noLeftGrowth_cons hng
    have hstep : (applyOp t op).data.getD j SPACE = SPACE := by
      cases op with
      | apply_rule r =>
        exact apply_rule_getD_blank t r j hoff
          (hw _ (List.mem_cons_self _ _)) hblank
      | set_head p => exact set_head_getD_blank t p j hoff hblank
    refine ih (applyOp t op) j hng' ?_ hstep
    intro i hi
    apply hw
    cases op with
    | apply_rule r => exact List.mem_cons_of_mem _ hi
    | set_head p => exact hi

lemma new_offset_zero (data0 : List Char) (h : Int) (hh : 0 ≤ h) :
    (Tape.new data0 h 0).head_offset = 0 := by
  unfold Tape.new
  simp only [sub_zero]
  by_cases h0 : h = 0
  · rw [if_pos h0]; exact h0
  · rw [if_neg h0, if_neg (by omega)]

lemma new_base_blank (data0 : List Char) (h : Int) (hh : 0 ≤ h) (j : Nat)
    (hj : data0.length ≤ j) : (Tape.new data0 h 0).data.getD j SPACE = SPACE := by
  unfold Tape.new
  simp only [sub_zero]
  by_cases h0 : h = 0
  · rw [if_pos h0]
    by_cases hde : data0.isEmpty
    · simp only [if_pos hde]
      cases j with
      | zero => rfl
      | succ m => rfl
    · simp only [if_neg hde]
      exact List.getD_eq_default _ _ hj
  · rw [if_neg h0, if_neg (by omega)]
    simp only
    rw [getD_append_blank]
    exact List.getD_eq_default _ _ hj

lemma set_head_read_blank (t : Tape) (p : Int)
    (hoff : t.head_offset = 0) (hp64 : p < 2 ^ 64)
    (hcell : 0 ≤ p → t.data.getD p.toNat SPACE = SPACE) :
    (t.set_head p).read = SPACE := by
  unfold Tape.set_head Tape.read
  rw [hoff, add_zero]
  rcases lt_or_le p 0 with hneg | hpos
  · unfold Tape.extend
    simp only
    rw [if_pos hneg]
    simp only
    have h1 : usizeOfInt 0 = 0 := usizeOfInt_of_nonneg le_rfl (by norm_num)
    rw [h1]
    have hk : 0 < (-p).toNat := by omega
    cases hrep : (-p).toNat with
    | zero => omega
    | succ m => rw [List.replicate_succ]; rfl
  · unfold Tape.extend
    simp only
    rw [if_neg (by omega)]
    have hu : usizeOfInt p = p.toNat := usizeOfInt_of_nonneg hpos hp64
    by_cases hbig : 0 < p ∧ (t.data.length : Int) < p + 1
    · rw [if_pos hbig]
      simp only [hu]
      rw [List.getD_eq_getElem?_getD, List.getElem?_append_right (by omega),
        List.getElem?_replicate, if_pos (by omega)]
      rfl
    · rw [if_neg hbig]
      simp only [hu]
      exact hcell hpos

/-- Refuting input for C9: build the tape from `"a"` with head 0 (initial
data occupies logical position 0), write `'x'` at the head — logical
position 0, the only position ever written — moving left, which grows the
buffer leftwards; then `set_head 2` followed by `read()` returns the
written `'x'` although logical position 2 was never written and never held
initial data: left growth shifts the offset with the wrong sign, remapping
logical addresses. -/
theorem c9_counterexample :
    (Tape.new ['a'] 0 0).head = 0 ∧
    Tape.read (Tape.set_head (Tape.apply_rule (Tape.new ['a'] 0 0) ⟨'x', Move.Left, 0⟩) 2) = 'x' ∧
    ('x' : Char) ≠ SPACE := by
  refine ⟨by decide, by decide, by decide⟩

/-- C9 (amended): `read()` is total by construction — out-of-range buffer
indices read blank — and for every tape built with `data_start_at = 0` and
a non-negative head, after any operation sequence that never grows the
buffer to the left, `set_head(p)` followed by `read()` returns the blank
symbol for every addressable position `p` that is negative or is neither
inside the initial data nor among the written positions.  (With left
growth the offset-sign slip remaps addresses — see the counterexample.) -/
theorem c9_blank_read (data0 : List Char) (h p : Int) (ops : List TapeOp)
    (hh : 0 ≤ h)
    (hng : noLeftGrowth (Tape.new data0 h 0) ops = true)
    (hp64 : p < 2 ^ 64)
    (hfresh : 0 ≤ p → ((data0.length : Int) ≤ p ∧
      p.toNat ∉ writeIndicesOf (Tape.new data0 h 0) ops)) :
    ((runOps (Tape.new data0 h 0) ops).set_head p).read = SPACE := by
  have hoff0 : (Tape.new data0 h 0).head_offset = 0 := new_offset_zero data0 h hh
  have hoffT : (runOps (Tape.new data0 h 0) ops).head_offset = 0 := by
    rw [runOps_offset hng, hoff0]
  apply set_head_read_blank _ _ hoffT hp64
  intro hp0
  obtain ⟨hlen, hw⟩ := hfresh hp0
  refine blank_invariant ops _ _ hng ?_ ?_
  · intro i hi hij
    exact hw (hij ▸ hi)
  · exact new_base_blank data0 h hh p.toNat (by omega)

/-- Witness for C9 on a concrete written tape and fresh position. -/
theorem c9_blank_read_witness :
    noLeftGrowth (Tape.new "ab".data 0 0) [.apply_rule ⟨'x', Move.Right, 0⟩] = true ∧
    ((runOps (Tape.new "ab".data 0 0) [.apply_rule ⟨'x', Move.Right, 0⟩]).set_head 5).read
      = SPACE :=
  ⟨by decide,
   c9_blank_read "ab".data 0 5 [.apply_rule ⟨'x', Move.Right, 0⟩]
     (by decide) (by decide) (by norm_num)
     (fun _ => ⟨by decide, by decide⟩)⟩

/-! ## C2: row-length tolerance of `Ruleset` parsing -/

lemma parseCellsLoop_ne_invalidFormat (states : List Nat) (symbol : Char) (ind : Nat) :
    ∀ (cells : List (List Char)) (i : Nat) (rules : RulesMap),
    i + cells.length ≤ states.length →
    ∀ r c, parseCellsLoop states symbol ind i rules cells ≠ .error (.InvalidFormat r c) := by
  intro cells
  induction cells with
  | nil =>
    intro i rules _ r c
    simp [parseCellsLoop]
  | cons cell rest ih =>
    intro i rules hlen r c
    have hi : i < states.length := by
      simp only [List.length_cons] at hlen; omega
    simp only [parseCellsLoop]
    split
    · next heq =>
      rw [List.get?_eq_get hi] at heq
      exact absurd heq (by simp)
    · split
      · simp
      · exact ih (i + 1) _ (by simp only [List.length_cons] at hlen; omega) r c

lemma parseHeaderStates_ne_invalidFormat :
    ∀ (cells : List (List Char)) (rules : RulesMap) (states : List Nat) (r c : Nat),
    parseHeaderStates cells rules states ≠ .error (.InvalidFormat r c) := by
  intro cells
  induction cells with
  | nil => intro rules states r c; simp [parseHeaderStates]
  | cons cell rest ih =>
    intro rules states r c
    simp only [parseHeaderStates]
    split
    · simp
    · split
      · simp
      · exact ih _ _ r c

lemma parseRowsLoop_invalidFormat_col (states : List Nat) :
    ∀ (lsrows : List (List Char)) (ind : Nat) (rules : RulesMap)
      (alphabet : List Char) (r c : Nat),
    parseRowsLoop states ind rules alphabet lsrows = .error (.InvalidFormat r c) →
    c = 0 := by
  intro ls
  induction ls with
  | nil => intro ind rules alphabet r c h; simp [parseRowsLoop] at h
  | cons line rest ih =>
    intro ind rules alphabet r c
    simp only [parseRowsLoop]
    split
    · exact ih _ _ _ r c
    · split
      · intro h
        simp only [Except.error.injEq, RulesetParseError.InvalidFormat.injEq] at h
        omega
      · next symCell ruleCells heq =>
        split
        · intro h; simp at h
        · split
          · intro h; simp at h
          · split
            · next e hcells =>
              intro h
              have he : e = .InvalidFormat r c := by
                simp only [Except.error.injEq] at h
                exact h
              have hlen : 0 + ruleCells.length ≤ states.length := by
                have hl := congrArg List.length heq
                simp only [List.length_take, List.length_cons] at hl
                omega
              exact absurd (he ▸ hcells)
                (parseCellsLoop_ne_invalidFormat states _ ind ruleCells 0 _ hlen r c)
            · exact ih _ _ _ r c

lemma from_str_invalidFormat_col (s : List Char) (r c : Nat)
    (h : Ruleset.from_str s = .error (.InvalidFormat r c)) : c = 0 := by
  unfold Ruleset.from_str at h
  split at h
  · simp at h
  · split at h
    · next e heq =>
      have he : e = .InvalidFormat r c := by
        simp only [Except.error.injEq] at h
        exact h
      exact absurd (he ▸ heq) (parseHeaderStates_ne_invalidFormat _ _ _ r c)
    · next rules states heq =>
      exact parseRowsLoop_invalidFormat_col states _ 0 rules [] r c h

/-- The table of `test_ruleset_from_str_without_col`: the row for symbol
`'a'` has only three rule cells under a four-state header. -/
def withoutColTable : String :=
"|   | 0     | 1     | 2     | 3   |
 |---|---    | --- |---    |---  |
 | a | a>1   | a<2   | b>3   |
 | b | _<1   | a>2   | a<3   | a!0 |"

/-- The table of `test_ruleset_from_str_with_extra_col`: the row for symbol
`'a'` has five rule cells under a four-state header. -/
def extraColTable : String :=
"|   | 0     | 1     | 2     | 3   |
 |---|---    | --- |---    |---  |
 | a | a>1   | a<2   | b>3   | a<0 | a<0 |
 | b | _<1   | a>2   | a<3   | a!0 |"

/-- The same table with exactly four rule cells per row. -/
def plainTable : String :=
"|   | 0     | 1     | 2     | 3   |
 |---|---    | --- |---    |---  |
 | a | a>1   | a<2   | b>3   | a<0 |
 | b | _<1   | a>2   | a<3   | a!0 |"

/-- Refuting input for C2: the four-state table whose `'a'` row has only
three rule cells parses successfully (no `InvalidFormat`), with the pair
`(3, 'a')` simply left unbound while `(2, 'a')` is bound — exactly what the
source's own `test_ruleset_from_str_without_col` asserts. -/
theorem c2_counterexample :
    (Ruleset.from_str withoutColTable.data).map
        (fun r => (r.find 3 'a', r.find 2 'a')) =
      .ok (.error (.RuleNotFound 3 'a'), .ok ⟨'b', Move.Right, 3⟩) := by
  decide

/-- C2 (amended): a data row with fewer cells than the header's state count
parses successfully, leaving the unconsumed `(state, symbol)` pairs
unbound; `InvalidFormat{row, col}` arises only with `col = 0` (a body line
with no `'|'` cells at all); and extra trailing cells beyond the state
count are silently ignored. -/
theorem c2_row_tolerance :
    (∀ (s : List Char) (r c : Nat),
      Ruleset.from_str s = .error (.InvalidFormat r c) → c = 0) ∧
    (Ruleset.from_str withoutColTable.data).isOk = true ∧
    Ruleset.from_str extraColTable.data = Ruleset.from_str plainTable.data := by
  refine ⟨from_str_invalidFormat_col, by decide, by decide⟩

/-- Witness for C2 at a body line without any `'|'`. -/
theorem c2_row_tolerance_witness :
    Ruleset.from_str "| | 0 |\nxyz".data = .error (.InvalidFormat 0 0) ∧ (0 : Nat) = 0 :=
  ⟨by decide, c2_row_tolerance.1 "| | 0 |\nxyz".data 0 0 (by decide)⟩

/-! ## Split/join/trim algebra for the render/re-parse round trip -/

lemma splitOnChar_ne_nil (sep : Char) (s : List Char) : splitOnChar sep s ≠ [] := by
  cases s with
  | nil => simp [splitOnChar]
  | cons c cs =>
    simp only [splitOnChar]
    split
    · simp
    · split <;> simp

lemma splitOnChar_nosep {sep : Char} : ∀ {s : List Char}, sep ∉ s →
    splitOnChar sep s = [s] := by
  intro s
  induction s with
  | nil => intro _; rfl
  | cons c cs ih =>
    intro h
    have hc : c ≠ sep := fun hcc => h (hcc ▸ List.mem_cons_self c cs)
    have hcs : sep ∉ cs := fun hm => h (List.mem_cons_of_mem c hm)
    simp only [splitOnChar, if_neg hc, ih hcs]

lemma splitOnChar_append_sep {sep : Char} : ∀ {a : List Char}, sep ∉ a →
    ∀ (b : List Char), splitOnChar sep (a ++ sep :: b) = a :: splitOnChar sep b := by
  intro a
  induction a with
  | nil => intro _ b; simp [splitOnChar]
  | cons c cs ih =>
    intro h b
    have hc : c ≠ sep := fun hcc => h (hcc ▸ List.mem_cons_self c cs)
    have hcs : sep ∉ cs := fun hm => h (List.mem_cons_of_mem c hm)
    simp only [List.cons_append, splitOnChar, if_neg hc]
    show (match splitOnChar sep (cs ++ sep :: b) with
      | [] => [[c]]
      | p :: ps => (c :: p) :: ps) = (c :: cs) :: splitOnChar sep b
    rw [ih hcs b]

lemma mem_splitOnChar_no_sep {sep : Char} : ∀ {s p : List Char},
    p ∈ splitOnChar sep s → sep ∉ p := by
  intro s
  induction s with
  | nil =>
    intro p hp
    simp only [splitOnChar, List.mem_singleton] at hp
    simp [hp]
  | cons c cs ih =>
    intro p hp
    simp only [splitOnChar] at hp
    by_cases hc : c = sep
    · rw [if_pos hc] at hp
      rcases List.mem_cons.mp hp with h | h
      · simp [h]
      · exact ih h
    · rw [if_neg hc] at hp
      rcases hsp : splitOnChar sep cs with _ | ⟨q, qs⟩
      · exact absurd hsp (splitOnChar_ne_nil sep cs)
      · rw [hsp] at hp
        rcases List.mem_cons.mp hp with h | h
        · subst h
          intro hmem
          rcases List.mem_cons.mp hmem with h | h
          · exact hc h.symm
          · exact ih (hsp ▸ List.mem_cons_self q qs) h
        · exact ih (hsp ▸ List.mem_cons_of_mem q h)

lemma mem_of_mem_splitOnChar {sep : Char} : ∀ {s p : List Char},
    p ∈ splitOnChar sep s → ∀ {c : Char}, c ∈ p → c ∈ s := by
  intro s
  induction s with
  | nil =>
    intro p hp c hc
    simp only [splitOnChar, List.mem_singleton] at hp
    subst hp
    simp at hc
  | cons a cs ih =>
    intro p hp c hc
    simp only [splitOnChar] at hp
    by_cases ha : a = sep
    · rw [if_pos ha] at hp
      rcases List.mem_cons.mp hp with h | h
      · subst h; simp at hc
      · exact List.mem_cons_of_mem a (ih h hc)
    · rw [if_neg ha] at hp
      rcases hsp : splitOnChar sep cs with _ | ⟨q, qs⟩
      · exact absurd hsp (splitOnChar_ne_nil sep cs)
      · rw [hsp] at hp
        rcases List.mem_cons.mp hp with h | h
        · subst h
          rcases List.mem_cons.mp hc with h | h
          · exact h ▸ List.mem_cons_self a cs
          · exact List.mem_cons_of_mem a (ih (hsp ▸ List.mem_cons_self q qs) h)
        · exact List.mem_cons_of_mem a (ih (hsp ▸ List.mem_cons_of_mem q h) hc)

/-- The lines of a rendering: each line followed by one `'\n'`. -/
def joinNL (ls : List (List Char)) : List Char := (ls.map (· ++ ['\n'])).flatten

lemma splitOnChar_joinNL : ∀ {ls : List (List Char)}, (∀ l ∈ ls, '\n' ∉ l) →
    splitOnChar '\n' (joinNL ls) = ls ++ [[]] := by
  intro ls
  induction ls with
  | nil => intro _; rfl
  | cons l rest ih =>
    intro h
    show splitOnChar '\n' ((l ++ ['\n']) ++ joinNL rest) = (l :: rest) ++ [[]]
    rw [List.append_assoc, List.singleton_append,
      splitOnChar_append_sep (h l (List.mem_cons_self l rest)) (joinNL rest),
      ih (fun x hx => h x (List.mem_cons_of_mem l hx))]
    rfl

lemma linesOf_joinNL {ls : List (List Char)} (hnl : ∀ l ∈ ls, '\n' ∉ l)
    (hcr : ∀ l ∈ ls, l.getLast? ≠ some '\r') :
    linesOf (joinNL ls) = ls := by
  cases ls with
  | nil => rfl
  | cons l rest =>
    have hsplit := splitOnChar_joinNL hnl
    have hne : joinNL (l :: rest) ≠ [] := by
      show (l ++ ['\n']) ++ joinNL rest ≠ []
      simp
    have hlast : (l :: (rest ++ [[]])).getLast? = some ([] : List Char) := by
      rw [← List.cons_append]
      exact List.getLast?_concat _
    have hmap : (l :: rest).map stripCR = l :: rest := by
      have hid : ∀ x ∈ l :: rest, stripCR x = x := by
        intro x hx
        unfold stripCR
        rw [if_neg (hcr x hx)]
      calc (l :: rest).map stripCR = (l :: rest).map id := List.map_congr_left hid
        _ = l :: rest := List.map_id _
    unfold linesOf
    rw [if_neg hne]
    simp only [hsplit]
    split
    · rw [List.dropLast_concat, hmap]
    · next hcond =>
      rw [List.cons_append] at hcond
      exact absurd hlast hcond

lemma trimLeft_subset (s : List Char) : trimLeft s ⊆ s := by
  induction s with
  | nil => simp [trimLeft]
  | cons c cs ih =>
    simp only [trimLeft]
    split
    · exact fun x hx => List.mem_cons_of_mem c (ih hx)
    · exact fun x hx => hx

lemma trimRight_subset (s : List Char) : trimRight s ⊆ s := by
  intro x hx
  unfold trimRight at hx
  rw [← List.mem_reverse]
  exact (List.dropWhile_sublist _).subset (by simpa using hx)

lemma trim_subset (s : List Char) : trim s ⊆ s := fun _ hc =>
  trimRight_subset s (trimLeft_subset (trimRight s) hc)

lemma trimLeft_head_not_ws : ∀ {s : List Char} {c : Char} {cs : List Char},
    trimLeft s = c :: cs → isWs c = false := by
  intro s
  induction s with
  | nil => intro c cs h; simp [trimLeft] at h
  | cons a as ih =>
    intro c cs h
    simp only [trimLeft] at h
    split at h
    · exact ih h
    · next hne =>
      rw [List.cons.injEq] at h
      rw [← h.1]
      simpa using hne

lemma trim_head_not_ws {s : List Char} {c : Char} {cs : List Char}
    (h : trim s = c :: cs) : isWs c = false :=
  trimLeft_head_not_ws h

lemma trimLeft_of_head_not_ws {c : Char} {cs : List Char} (h : isWs c = false) :
    trimLeft (c :: cs) = c :: cs := by
  simp [trimLeft, h]

lemma trimLeft_ws_cons {c : Char} (cs : List Char) (h : isWs c = true) :
    trimLeft (c :: cs) = trimLeft cs := by
  simp [trimLeft, h]

lemma trimRight_of_last_not_ws {x : List Char}
    (h : ∀ c, x.getLast? = some c → isWs c = false) : trimRight x = x := by
  unfold trimRight
  cases hr : x.reverse with
  | nil =>
    have hx : x = [] := by simpa using hr
    simp [hx, List.dropWhile]
  | cons c cs =>
    have hc : x.getLast? = some c := by
      rw [← List.head?_reverse, hr]; rfl
    rw [List.dropWhile_cons, if_neg (by simp [h c hc])]
    rw [← hr, List.reverse_reverse]

lemma trimRight_append_ws {c : Char} (x : List Char) (h : isWs c = true) :
    trimRight (x ++ [c]) = trimRight x := by
  unfold trimRight
  rw [List.reverse_append]
  show ((c :: x.reverse).dropWhile _).reverse = _
  rw [List.dropWhile_cons, if_pos (by simp [h])]

lemma getLast?_cons_of_ne_nil {α : Type} {c : α} {x : List α} (h : x ≠ []) :
    (c :: x).getLast? = x.getLast? := by
  cases x with
  | nil => exact absurd rfl h
  | cons a as => rw [List.getLast?_cons_cons]

/-- Trimming a cell padded with single spaces recovers the clean token. -/
lemma trim_pad {x : List Char} (hx : x ≠ [])
    (hh : ∀ c, x.head? = some c → isWs c = false)
    (hl : ∀ c, x.getLast? = some c → isWs c = false) :
    trim (' ' :: x ++ [' ']) = x ∧ trim (' ' :: x) = x := by
  have hws : isWs ' ' = true := by decide
  have hright : trimRight (' ' :: x) = ' ' :: x := by
    apply trimRight_of_last_not_ws
    intro c hc
    rw [getLast?_cons_of_ne_nil hx] at hc
    exact hl c hc
  have hleft : trimLeft (' ' :: x) = x := by
    rw [trimLeft_ws_cons x hws]
    cases hxc : x with
    | nil => exact absurd hxc hx
    | cons a as =>
      apply trimLeft_of_head_not_ws
      apply hh
      rw [hxc]; rfl
  constructor
  · show trim ((' ' :: x) ++ [' ']) = x
    unfold trim
    rw [trimRight_append_ws _ hws, hright, hleft]
  · unfold trim
    rw [hright, hleft]

lemma trimEndPipes_append_pipe (y : List Char) :
    trimEndPipes (y ++ ['|']) = trimEndPipes y := by
  unfold trimEndPipes
  rw [List.reverse_append]
  show (('|' :: y.reverse).dropWhile _).reverse = _
  rw [List.dropWhile_cons, if_pos (by simp)]

lemma trimEndPipes_of_last {y : List Char}
    (h : ∀ c, y.getLast? = some c → c ≠ '|') : trimEndPipes y = y := by
  unfold trimEndPipes
  cases hr : y.reverse with
  | nil =>
    have hy : y = [] := by simpa using hr
    simp [hy, List.dropWhile]
  | cons c cs =>
    have hc : y.getLast? = some c := by
      rw [← List.head?_reverse, hr]; rfl
    rw [List.dropWhile_cons, if_neg (by simp [h c hc])]
    rw [← hr, List.reverse_reverse]

lemma trimEndPipes_subset (s : List Char) : trimEndPipes s ⊆ s := by
  intro x hx
  unfold trimEndPipes at hx
  rw [← List.mem_reverse]
  exact (List.dropWhile_sublist _).subset (by simpa using hx)

/-! ## Rendered-line structure -/

/-- The pipe pieces of a rendered cell sequence: the `" | "` join pads every
cell with one left space, and all but the last also with one right space. -/
def padPieces : List (List Char) → List (List Char)
  | [] => []
  | [c] => [' ' :: c]
  | c :: rest => (' ' :: c ++ [' ']) :: padPieces rest

lemma padPieces_ne_nil : ∀ {cells : List (List Char)}, cells ≠ [] →
    padPieces cells ≠ [] := by
  intro cells h
  cases cells with
  | nil => exact absurd rfl h
  | cons c rest => cases rest <;> simp [padPieces]

lemma joinSep_cons (sep : List Char) (x : List Char) {xs : List (List Char)}
    (h : xs ≠ []) : joinSep sep (x :: xs) = x ++ sep ++ joinSep sep xs := by
  cases xs with
  | nil => exact absurd rfl h
  | cons y ys => rfl

lemma pad_joinSep : ∀ (cells : List (List Char)), cells ≠ [] →
    ' ' :: joinSep [' ', '|', ' '] cells = joinSep ['|'] (padPieces cells) := by
  intro cells
  induction cells with
  | nil => intro h; exact absurd rfl h
  | cons c rest ih =>
    intro _
    cases rest with
    | nil => rfl
    | cons c2 rs =>
      show ' ' :: joinSep [' ', '|', ' '] (c :: c2 :: rs) =
        joinSep ['|'] ((' ' :: c ++ [' ']) :: padPieces (c2 :: rs))
      rw [joinSep_cons _ c (by simp),
        joinSep_cons ['|'] (' ' :: c ++ [' ']) (padPieces_ne_nil (by simp)),
        ← ih (by simp)]
      simp

lemma splitOnChar_joinSep_pipe : ∀ (ps : List (List Char)), ps ≠ [] →
    (∀ p ∈ ps, '|' ∉ p) → splitOnChar '|' (joinSep ['|'] ps) = ps := by
  intro ps
  induction ps with
  | nil => intro h; exact absurd rfl h
  | cons p rest ih =>
    intro _ hfree
    cases rest with
    | nil => exact splitOnChar_nosep (hfree p (List.mem_cons_self _ _))
    | cons p2 rs =>
      rw [joinSep_cons ['|'] p (by simp)]
      have : p ++ ['|'] ++ joinSep ['|'] (p2 :: rs) = p ++ '|' :: joinSep ['|'] (p2 :: rs) := by
        simp
      rw [this, splitOnChar_append_sep (hfree p (List.mem_cons_self _ _)) _,
        ih (by simp) (fun q hq => hfree q (List.mem_cons_of_mem p hq))]

lemma joinSep_getLast? (sep : List Char) : ∀ (ps : List (List Char)) (x : List Char),
    ps.getLast? = some x → x ≠ [] → (joinSep sep ps).getLast? = x.getLast? := by
  intro ps
  induction ps with
  | nil => intro x h; simp at h
  | cons p rest ih =>
    intro x h hx
    cases rest with
    | nil =>
      have hp : p = x := by simpa using h
      subst hp; rfl
    | cons p2 rs =>
      rw [joinSep_cons sep p (by simp), List.append_assoc, List.getLast?_append,
        List.getLast?_append]
      have h' : (p2 :: rs).getLast? = some x := by
        rw [List.getLast?_cons_cons] at h; exact h
      rw [ih x h' hx]
      obtain ⟨d, hd⟩ : ∃ d, x.getLast? = some d := by
        cases hgl : x.getLast? with
        | none => exact absurd (List.getLast?_eq_none_iff.mp hgl) hx
        | some d => exact ⟨d, rfl⟩
      simp [hd]

lemma mem_padPieces : ∀ {cells : List (List Char)} {q : List Char},
    q ∈ padPieces cells → ∃ c ∈ cells, q = ' ' :: c ∨ q = ' ' :: c ++ [' '] := by
  intro cells
  induction cells with
  | nil => intro q hq; simp [padPieces] at hq
  | cons c rest ih =>
    intro q hq
    cases rest with
    | nil =>
      simp only [padPieces, List.mem_singleton] at hq
      exact ⟨c, List.mem_cons_self _ _, .inl hq⟩
    | cons c2 rs =>
      rcases List.mem_cons.mp hq with h | h
      · exact ⟨c, List.mem_cons_self _ _, .inr h⟩
      · obtain ⟨x, hx, hq'⟩ := ih h
        exact ⟨x, List.mem_cons_of_mem c hx, hq'⟩

lemma map_trim_padPieces : ∀ (cells : List (List Char)),
    (∀ p ∈ cells, p ≠ [] ∧ (∀ c, p.head? = some c → isWs c = false) ∧
      (∀ c, p.getLast? = some c → isWs c = false)) →
    (padPieces cells).map trim = cells := by
  intro cells
  induction cells with
  | nil => intro _; rfl
  | cons c rest ih =>
    intro h
    obtain ⟨hne, hh, hl⟩ := h c (List.mem_cons_self _ _)
    cases rest with
    | nil =>
      show [trim (' ' :: c)] = [c]
      rw [(trim_pad hne hh hl).2]
    | cons c2 rs =>
      show trim (' ' :: c ++ [' ']) :: (padPieces (c2 :: rs)).map trim = c :: c2 :: rs
      rw [(trim_pad hne hh hl).1, ih (fun p hp => h p (List.mem_cons_of_mem c hp))]

lemma padPieces_length : ∀ (cells : List (List Char)),
    (padPieces cells).length = cells.length := by
  intro cells
  induction cells with
  | nil => rfl
  | cons c rest ih =>
    cases rest with
    | nil => rfl
    | cons c2 rs =>
      show (padPieces (c2 :: rs)).length + 1 = (c2 :: rs).length + 1
      rw [ih]

/-- The last pad piece is the last cell padded only on the left. -/
lemma padPieces_getLast? : ∀ {cells : List (List Char)} {clast : List Char},
    cells.getLast? = some clast →
    (padPieces cells).getLast? = some (' ' :: clast) := by
  intro cells
  induction cells with
  | nil => intro clast h; simp at h
  | cons c rest ih =>
    intro clast h
    cases rest with
    | nil =>
      have hc : c = clast := by simpa using h
      subst hc; rfl
    | cons c2 rs =>
      rw [List.getLast?_cons_cons] at h
      show ((' ' :: c ++ [' ']) :: padPieces (c2 :: rs)).getLast? = _
      rw [getLast?_cons_of_ne_nil (padPieces_ne_nil (by simp))]
      exact ih h

/-- Splitting a rendered line on `'|'` after trimming trailing pipes yields
an empty piece, the symbol/label piece, then the padded cells. -/
lemma split_framed_line (mid : List Char) (cells : List (List Char))
    (hne : cells ≠ []) (hmid : '|' ∉ mid)
    (hcells : ∀ p ∈ cells, '|' ∉ p ∧ p ≠ []) :
    splitOnChar '|'
        (trimEndPipes (('|' :: mid) ++ ('|' :: ' ' :: joinSep [' ', '|', ' '] cells) ++ ['|'])) =
      [] :: mid :: padPieces cells := by
  have hpads : ' ' :: joinSep [' ', '|', ' '] cells = joinSep ['|'] (padPieces cells) :=
    pad_joinSep cells hne
  have hfree : ∀ p ∈ [] :: mid :: padPieces cells, '|' ∉ p := by
    intro p hp
    rcases List.mem_cons.mp hp with h | h
    · simp [h]
    · rcases List.mem_cons.mp h with h | h
      · exact h ▸ hmid
      · obtain ⟨c, hc, hq⟩ := mem_padPieces h
        have hcf := (hcells c hc).1
        rcases hq with rfl | rfl
        · intro hm
          rcases List.mem_cons.mp hm with h' | h'
          · exact absurd h'.symm (by decide)
          · exact hcf h'
        · intro hm
          simp only [List.cons_append, List.mem_cons, List.mem_append,
            List.mem_singleton] at hm
          rcases hm with h' | h' | h'
          · exact absurd h'.symm (by decide)
          · exact hcf h'
          · exact absurd h'.symm (by decide)
  have hjoin : ('|' :: mid) ++ ('|' :: ' ' :: joinSep [' ', '|', ' '] cells) =
      joinSep ['|'] ([] :: mid :: padPieces cells) := by
    rw [joinSep_cons ['|'] [] (by simp), joinSep_cons ['|'] mid (padPieces_ne_nil hne),
      ← hpads]
    simp
  obtain ⟨clast, hclast⟩ : ∃ clast, cells.getLast? = some clast := by
    cases hgl : cells.getLast? with
    | none => exact absurd (List.getLast?_eq_none_iff.mp hgl) hne
    | some d => exact ⟨d, rfl⟩
  have hclmem : clast ∈ cells := List.mem_of_mem_getLast? hclast
  obtain ⟨hclfree, hclne⟩ := hcells clast hclmem
  have hpadlast : (padPieces cells).getLast? = some (' ' :: clast) :=
    padPieces_getLast? hclast
  have hlineslast : ∀ d, (joinSep ['|'] ([] :: mid :: padPieces cells)).getLast? = some d →
      d ≠ '|' := by
    intro d hd
    have hstep : ([] :: mid :: padPieces cells).getLast? = some (' ' :: clast) := by
      rw [getLast?_cons_of_ne_nil (by simp), getLast?_cons_of_ne_nil (padPieces_ne_nil hne)]
      exact hpadlast
    rw [joinSep_getLast? ['|'] _ _ hstep (by simp),
      getLast?_cons_of_ne_nil hclne] at hd
    have hdc : d ∈ clast := List.mem_of_mem_getLast? hd
    exact fun hdp => hclfree (hdp ▸ hdc)
  calc splitOnChar '|'
        (trimEndPipes (('|' :: mid) ++ ('|' :: ' ' :: joinSep [' ', '|', ' '] cells) ++ ['|']))
      = splitOnChar '|' (trimEndPipes (('|' :: mid) ++ ('|' :: ' ' :: joinSep [' ', '|', ' '] cells))) := by
        rw [trimEndPipes_append_pipe]
    _ = splitOnChar '|' (trimEndPipes (joinSep ['|'] ([] :: mid :: padPieces cells))) := by
        rw [hjoin]
    _ = splitOnChar '|' (joinSep ['|'] ([] :: mid :: padPieces cells)) := by
        rw [trimEndPipes_of_last hlineslast]
    _ = [] :: mid :: padPieces cells := splitOnChar_joinSep_pipe _ (by simp) hfree

/-! ## The three kinds of rendered lines -/

/-- The header line of a rendering, without its trailing newline. -/
def hdrLine (keys : List Nat) : List Char :=
  "|   | ".data ++ joinSep " | ".data (keys.map natChars) ++ ['|']

/-- The alignment-separator line of a rendering. -/
def sepLine (keys : List Nat) : List Char :=
  "|:-:|".data ++ (keys.map (fun _ => ":-:|".data)).flatten

/-- One body row of a rendering, without its trailing newline. -/
def rowLine (keys : List Nat) (r : Ruleset) (symbol : Char) : List Char :=
  "| ".data ++ [symbol] ++ " | ".data ++
  joinSep " | ".data (keys.map (fun state =>
    match lookup2 r.rules state symbol with
    | some rule => rule.display
    | none => "     ".data)) ++ ['|']

lemma display_eq_joinNL (keys : List Nat) (r : Ruleset) :
    Ruleset.display keys r =
      joinNL (hdrLine keys :: sepLine keys :: r.alphabet.map (rowLine keys r)) := by
  show "|   | ".data ++ joinSep " | ".data (keys.map natChars) ++ "|\n|:-:|".data ++
      (keys.map (fun _ => ":-:|".data)).flatten ++ "\n".data ++
      (r.alphabet.map (fun symbol =>
        "| ".data ++ [symbol] ++ " | ".data ++
        joinSep " | ".data (keys.map (fun state =>
          match lookup2 r.rules state symbol with
          | some rule => rule.display
          | none => "     ".data)) ++
        "|\n".data)).flatten = _
  unfold joinNL hdrLine sepLine rowLine
  rw [List.map_cons, List.map_cons, List.flatten_cons, List.flatten_cons, List.map_map]
  have hrows : (r.alphabet.map (fun symbol =>
      "| ".data ++ [symbol] ++ " | ".data ++
      joinSep " | ".data (keys.map (fun state =>
        match lookup2 r.rules state symbol with
        | some rule => rule.display
        | none => "     ".data)) ++
      "|\n".data)) =
      r.alphabet.map ((fun l => l ++ ['\n']) ∘ rowLine keys r) := by
    apply List.map_congr_left
    intro c _
    show _ = rowLine keys r c ++ ['\n']
    unfold rowLine
    have : "|\n".data = ['|'] ++ ['\n'] := rfl
    rw [this]
    simp [List.append_assoc]
  rw [hrows]
  have h1 : "|\n|:-:|".data = ['|'] ++ ['\n'] ++ "|:-:|".data := rfl
  have h2 : "\n".data = ['\n'] := rfl
  rw [h1, h2]
  simp only [List.append_assoc]
  rfl

lemma head?_mem {α : Type} {x : List α} {c : α} (h : x.head? = some c) : c ∈ x := by
  cases x with
  | nil => simp at h
  | cons a as =>
    have : a = c := by simpa using h
    exact this ▸ List.mem_cons_self a as

lemma digit_props {c : Char} (h : c ∈ ['0', '1', '2', '3', '4', '5', '6', '7', '8', '9']) :
    isWs c = false ∧ c ≠ '|' ∧ c ≠ '\n' ∧ c ≠ '\r' := by
  fin_cases h <;> exact ⟨by decide, by decide, by decide, by decide⟩

lemma natChars_token (n : Nat) :
    natChars n ≠ [] ∧ '|' ∉ natChars n ∧
    (∀ c, (natChars n).head? = some c → isWs c = false) ∧
    (∀ c, (natChars n).getLast? = some c → isWs c = false) ∧
    '\n' ∉ natChars n ∧ (∀ c, (natChars n).getLast? = some c → c ≠ '\r') := by
  refine ⟨natChars_ne_nil n, ?_, ?_, ?_, ?_, ?_⟩
  · intro hm; exact absurd rfl (digit_props (mem_natChars hm)).2.1
  · intro c hc; exact (digit_props (mem_natChars (head?_mem hc))).1
  · intro c hc; exact (digit_props (mem_natChars (List.mem_of_mem_getLast? hc))).1
  · intro hm; exact absurd rfl (digit_props (mem_natChars hm)).2.2.1
  · intro c hc; exact (digit_props (mem_natChars (List.mem_of_mem_getLast? hc))).2.2.2

/-- Processing the rendered header recovers the key list: the pieces past
the first two, trimmed, are the decimal renderings of the keys. -/
lemma header_pieces (keys : List Nat) (hk : keys ≠ []) :
    ((splitOnChar '|' (trimEndPipes (hdrLine keys))).drop 2).map trim =
      keys.map natChars := by
  have hkm : keys.map natChars ≠ [] := by simpa using hk
  have hcells : ∀ p ∈ keys.map natChars, '|' ∉ p ∧ p ≠ [] := by
    intro p hp
    obtain ⟨k, _, rfl⟩ := List.mem_map.mp hp
    exact ⟨(natChars_token k).2.1, (natChars_token k).1⟩
  have hform : hdrLine keys =
      ('|' :: [' ', ' ', ' ']) ++
        ('|' :: ' ' :: joinSep [' ', '|', ' '] (keys.map natChars)) ++ ['|'] := rfl
  rw [hform, split_framed_line [' ', ' ', ' '] (keys.map natChars) hkm (by decide) hcells]
  show (padPieces (keys.map natChars)).map trim = keys.map natChars
  apply map_trim_padPieces
  intro p hp
  obtain ⟨k, _, rfl⟩ := List.mem_map.mp hp
  exact ⟨(natChars_token k).1, fun c hc => (natChars_token k).2.2.1 c hc,
    fun c hc => (natChars_token k).2.2.2.1 c hc⟩

lemma sepLine_contains (keys : List Nat) :
    containsSeq [':', '-'] (sepLine keys) = true := by
  show containsSeq [':', '-']
    ('|' :: ':' :: '-' :: ':' :: '|' :: (keys.map (fun _ => ":-:|".data)).flatten) = true
  rw [containsSeq, containsSeq]
  simp [startsWithSeq]

/-! ## Association-map lemmas -/

lemma lookupA_isSome_iff {α β : Type} [DecidableEq α] :
    ∀ (l : List (α × β)) (k : α), (lookupA l k).isSome = true ↔ k ∈ l.map Prod.fst := by
  intro l
  induction l with
  | nil => intro k; simp [lookupA]
  | cons p rest ih =>
    intro k
    obtain ⟨a, b⟩ := p
    simp only [lookupA, List.map_cons, List.mem_cons]
    by_cases h : a = k
    · simp [h]
    · have hk : k ≠ a := fun hh => h hh.symm
      simp [h, hk, ih]

lemma lookupA_updateAssoc {α β : Type} [DecidableEq α] :
    ∀ (m : List (α × β)) (k : α) (v : β) (k' : α),
    lookupA (updateAssoc m k v) k' = if k = k' then some v else lookupA m k' := by
  intro m
  induction m with
  | nil =>
    intro k v k'
    simp [updateAssoc, lookupA]
  | cons p rest ih =>
    intro k v k'
    obtain ⟨a, b⟩ := p
    by_cases hak : a = k
    · subst hak
      by_cases hk' : a = k' <;> simp [updateAssoc, lookupA, hk']
    · by_cases hk' : a = k'
      · subst hk'
        have : k ≠ a := fun h => hak h.symm
        simp [updateAssoc, hak, lookupA, this]
      · simp [updateAssoc, hak, lookupA, hk', ih]

lemma insertRule_map_fst : ∀ (rules : RulesMap) (k : Nat) (c : Char) (rule : Rule),
    (insertRule rules k c rule).map Prod.fst = rules.map Prod.fst := by
  intro rules
  induction rules with
  | nil => intro k c rule; rfl
  | cons p rest ih =>
    intro k c rule
    obtain ⟨a, m⟩ := p
    by_cases h : a = k <;> simp [insertRule, h, ih]

lemma lookup2_insertRule : ∀ (rules : RulesMap) (k : Nat) (c : Char) (rule : Rule)
    (s : Nat) (c' : Char),
    lookup2 (insertRule rules k c rule) s c' =
      if s = k ∧ c' = c ∧ (lookupA rules k).isSome = true then some rule
      else lookup2 rules s c' := by
  intro rules
  induction rules with
  | nil =>
    intro k c rule s c'
    simp [insertRule, lookup2, lookupA]
  | cons p rest ih =>
    intro k c rule s c'
    obtain ⟨a, m⟩ := p
    show lookup2 (if a = k then (a, updateAssoc m c rule) :: rest
        else (a, m) :: insertRule rest k c rule) s c' = _
    by_cases hak : a = k
    · subst hak
      rw [if_pos rfl]
      by_cases has : a = s
      · subst has
        have hL : lookup2 ((a, updateAssoc m c rule) :: rest) a c'
            = lookupA (updateAssoc m c rule) c' := by
          simp [lookup2, lookupA]
        have hS : (lookupA ((a, m) :: rest) a).isSome = true := by
          simp [lookupA]
        have hR2 : lookup2 ((a, m) :: rest) a c' = lookupA m c' := by
          simp [lookup2, lookupA]
        rw [hL, lookupA_updateAssoc]
        by_cases hc : c = c'
        · subst hc
          rw [if_pos rfl, if_pos ⟨rfl, rfl, hS⟩]
        · rw [if_neg hc, if_neg (by rintro ⟨_, h2, _⟩; exact hc h2.symm), hR2]
      · have hsa : s ≠ a := fun h => has h.symm
        have hL : lookup2 ((a, updateAssoc m c rule) :: rest) s c' = lookup2 rest s c' := by
          simp [lookup2, lookupA, has]
        have hR : lookup2 ((a, m) :: rest) s c' = lookup2 rest s c' := by
          simp [lookup2, lookupA, has]
        rw [hL, hR, if_neg (by rintro ⟨h1, _, _⟩; exact hsa h1)]
    · rw [if_neg hak]
      by_cases has : a = s
      · subst has
        have hL : lookup2 ((a, m) :: insertRule rest k c rule) a c' = lookupA m c' := by
          simp [lookup2, lookupA]
        have hR : lookup2 ((a, m) :: rest) a c' = lookupA m c' := by
          simp [lookup2, lookupA]
        rw [hL, if_neg (by rintro ⟨h1, _, _⟩; exact hak h1), hR]
      · have hL : lookup2 ((a, m) :: insertRule rest k c rule) s c'
            = lookup2 (insertRule rest k c rule) s c' := by
          simp [lookup2, lookupA, has]
        have hR : lookup2 ((a, m) :: rest) s c' = lookup2 rest s c' := by
          simp [lookup2, lookupA, has]
        have hRk : lookupA ((a, m) :: rest) k = lookupA rest k := by
          simp [lookupA, hak]
        rw [hL, ih, hRk, hR]

/-- The per-row insertion fold: one `insert` per header key, left to right. -/
def insertRowFold (symbol : Char) (ruleFor : Nat → Rule) : RulesMap → List Nat → RulesMap
  | rules, [] => rules
  | rules, k :: ks => insertRowFold symbol ruleFor (insertRule rules k symbol (ruleFor k)) ks

lemma insertRowFold_map_fst (symbol : Char) (ruleFor : Nat → Rule) :
    ∀ (ks : List Nat) (rules : RulesMap),
    (insertRowFold symbol ruleFor rules ks).map Prod.fst = rules.map Prod.fst := by
  intro ks
  induction ks with
  | nil => intro rules; rfl
  | cons k rest ih =>
    intro rules
    show (insertRowFold symbol ruleFor (insertRule rules k symbol (ruleFor k)) rest).map Prod.fst = _
    rw [ih, insertRule_map_fst]

lemma lookup2_insertRowFold (symbol : Char) (ruleFor : Nat → Rule) :
    ∀ (ks : List Nat) (rules : RulesMap) (s : Nat) (c : Char),
    (∀ k ∈ ks, (lookupA rules k).isSome = true) →
    lookup2 (insertRowFold symbol ruleFor rules ks) s c =
      if s ∈ ks ∧ c = symbol then some (ruleFor s) else lookup2 rules s c := by
  intro ks
  induction ks with
  | nil => intro rules s c _; simp [insertRowFold]
  | cons k rest ih =>
    intro rules s c hks
    have hrest : ∀ k' ∈ rest, (lookupA (insertRule rules k symbol (ruleFor k)) k').isSome = true := by
      intro k' hk'
      rw [lookupA_isSome_iff, insertRule_map_fst, ← lookupA_isSome_iff]
      exact hks k' (List.mem_cons_of_mem k hk')
    show lookup2 (insertRowFold symbol ruleFor (insertRule rules k symbol (ruleFor k)) rest) s c = _
    rw [ih _ s c hrest, lookup2_insertRule]
    have hk : (lookupA rules k).isSome = true := hks k (List.mem_cons_self _ _)
    by_cases hsr : s ∈ rest
    · by_cases hc : c = symbol <;> simp [hsr, hc, hk]
    · by_cases hsk : s = k
      · subst hsk
        by_cases hc : c = symbol <;> simp [hsr, hc, hk]
      · simp [hsr, hsk]

lemma lookup2_empty_inners : ∀ (keys : List Nat) (s : Nat) (c : Char),
    lookup2 (keys.map (fun k => (k, ([] : List (Char × Rule))))) s c = none := by
  intro keys
  induction keys with
  | nil => intro s c; rfl
  | cons k rest ih =>
    intro s c
    by_cases h : k = s
    · simp [lookup2, lookupA, h]
    · simp only [List.map_cons, lookup2, lookupA, if_neg h]
      simpa [lookup2] using ih s c

/-! ## Header and row processing of a rendering -/

lemma parseU32_lt {s : List Char} {v : Nat} (h : parseU32 s = some v) : v < 2 ^ 32 := by
  unfold parseU32 at h
  cases hpd : parseDigits (stripPlus s) with
  | none => rw [hpd] at h; simp at h
  | some w =>
    rw [hpd] at h
    change (if w < 2 ^ 32 then some w else none) = some v at h
    by_cases hw : w < 2 ^ 32
    · rw [if_pos hw] at h
      have hv := Option.some.inj h
      omega
    · rw [if_neg hw] at h
      simp at h

lemma parseHeaderStates_natChars : ∀ (keys : List Nat) (rules0 : RulesMap) (states0 : List Nat),
    (∀ k ∈ keys, k < 2 ^ 32) →
    keys.Nodup →
    rules0.map Prod.fst = states0 →
    (∀ k ∈ keys, k ∉ states0) →
    parseHeaderStates (keys.map natChars) rules0 states0 =
      .ok (rules0 ++ keys.map (fun k => (k, [])), states0 ++ keys) := by
  intro keys
  induction keys with
  | nil => intro rules0 states0 _ _ _ _; simp [parseHeaderStates]
  | cons k rest ih =>
    intro rules0 states0 h32 hnd hfst hdisj
    show parseHeaderStates (natChars k :: rest.map natChars) rules0 states0 = _
    simp only [parseHeaderStates]
    rw [parseU32_natChars (h32 k (List.mem_cons_self _ _))]
    have hmem : k ∉ rules0.map Prod.fst := by
      rw [hfst]; exact hdisj k (List.mem_cons_self _ _)
    have hnotin : (lookupA rules0 k).isSome = false := by
      cases hb : (lookupA rules0 k).isSome with
      | false => rfl
      | true => exact absurd ((lookupA_isSome_iff rules0 k).mp hb) hmem
    show (if (lookupA rules0 k).isSome = true
        then Except.error (RulesetParseError.DuplicateState k)
        else parseHeaderStates (List.map natChars rest) (rules0 ++ [(k, [])]) (states0 ++ [k])) = _
    rw [if_neg (by simp [hnotin])]
    rw [ih (rules0 ++ [(k, [])]) (states0 ++ [k])
      (fun x hx => h32 x (List.mem_cons_of_mem k hx))
      (List.Nodup.of_cons hnd)
      (by simp [hfst])
      (by
        intro x hx
        simp only [List.mem_append, List.mem_singleton]
        rintro (h | rfl)
        · exact hdisj x (List.mem_cons_of_mem k hx) h
        · exact (List.nodup_cons.mp hnd).1 hx)]
    simp

/-! ## Row processing of a rendering -/

/-- The rendered text of the table cell for `(state, symbol)`. -/
def cellText (r : Ruleset) (state : Nat) (symbol : Char) : List Char :=
  match lookup2 r.rules state symbol with
  | some rule => rule.display
  | none => "     ".data

/-- The rule bound at `(state, symbol)`, with an arbitrary default. -/
def ruleAt (r : Ruleset) (state : Nat) (symbol : Char) : Rule :=
  (lookup2 r.rules state symbol).getD ⟨' ', Move.Stop, 0⟩

lemma rowLine_eq (keys : List Nat) (r : Ruleset) (symbol : Char) :
    rowLine keys r symbol = ('|' :: [' ', symbol, ' ']) ++
      ('|' :: ' ' :: joinSep [' ', '|', ' ']
        (keys.map (fun st => cellText r st symbol))) ++ ['|'] := rfl

lemma cellText_bound {r : Ruleset} {st : Nat} {symbol : Char} {rule : Rule}
    (h : lookup2 r.rules st symbol = some rule) :
    cellText r st symbol = rule.display ∧ ruleAt r st symbol = rule := by
  unfold cellText ruleAt
  rw [h]
  exact ⟨rfl, rfl⟩

lemma display_token {rule : Rule} (hw : isWs rule.write = false) (hwp : rule.write ≠ '|') :
    Rule.display rule ≠ [] ∧ '|' ∉ Rule.display rule ∧
    (∀ c, (Rule.display rule).head? = some c → isWs c = false) ∧
    (∀ c, (Rule.display rule).getLast? = some c → isWs c = false) := by
  obtain ⟨w, m, n⟩ := rule
  refine ⟨by simp [Rule.display], ?_, ?_, ?_⟩
  · show '|' ∉ w :: Move.toChar m :: natChars n
    intro hm
    rcases List.mem_cons.mp hm with h | h
    · exact hwp h.symm
    · rcases List.mem_cons.mp h with h | h
      · cases m <;> exact absurd h.symm (by decide)
      · exact absurd rfl (digit_props (mem_natChars h)).2.1
  · intro c hc
    have : w = c := by simpa [Rule.display] using hc
    exact this ▸ hw
  · intro c hc
    rw [show Rule.display ⟨w, m, n⟩ = w :: Move.toChar m :: natChars n from rfl,
      List.getLast?_cons_cons, getLast?_cons_of_ne_nil (natChars_ne_nil n)] at hc
    exact (digit_props (mem_natChars (List.mem_of_mem_getLast? hc))).1

lemma row_pieces (keys : List Nat) (r : Ruleset) (symbol : Char) (hk : keys ≠ [])
    (hsym : symbol ≠ '|')
    (hcell : ∀ st ∈ keys, '|' ∉ cellText r st symbol ∧ cellText r st symbol ≠ []) :
    splitOnChar '|' (trimEndPipes (rowLine keys r symbol)) =
      [] :: [' ', symbol, ' '] :: padPieces (keys.map (fun st => cellText r st symbol)) := by
  rw [rowLine_eq]
  apply split_framed_line
  · simpa using hk
  · intro hm
    rcases List.mem_cons.mp hm with h | h
    · exact absurd h.symm (by decide)
    · rcases List.mem_cons.mp h with h | h
      · exact hsym h.symm
      · simp at h
  · intro p hp
    obtain ⟨st, hst, rfl⟩ := List.mem_map.mp hp
    exact ⟨(hcell st hst).1, (hcell st hst).2⟩

lemma parseCellsLoop_pads (keys : List Nat) (symbol : Char) (ind : Nat)
    (strFor : Nat → List Char) (ruleFor : Nat → Rule)
    (hok : ∀ k ∈ keys, Rule.from_str (strFor k) = .ok (ruleFor k))
    (htok : ∀ k ∈ keys, strFor k ≠ [] ∧
      (∀ c, (strFor k).head? = some c → isWs c = false) ∧
      (∀ c, (strFor k).getLast? = some c → isWs c = false)) :
    ∀ (ks : List Nat) (i : Nat) (rules : RulesMap),
    keys.drop i = ks →
    parseCellsLoop keys symbol ind i rules (padPieces (ks.map strFor)) =
      .ok (insertRowFold symbol ruleFor rules ks) := by
  intro ks
  induction ks with
  | nil => intro i rules _; rfl
  | cons k rest ih =>
    intro i rules hdrop
    have hkmem : k ∈ keys := by
      have hsub := List.drop_subset i keys
      rw [hdrop] at hsub
      exact hsub (List.mem_cons_self _ _)
    have hget : keys.get? i = some k := by
      rw [List.get?_eq_getElem?, ← List.head?_drop, hdrop]
      rfl
    obtain ⟨hne, hh, hl⟩ := htok k hkmem
    have hdrop1 : keys.drop (i + 1) = rest := by
      rw [← List.drop_drop 1 i, hdrop]
      rfl
    cases rest with
    | nil =>
      show parseCellsLoop keys symbol ind i rules [' ' :: strFor k] = _
      simp only [parseCellsLoop, hget, (trim_pad hne hh hl).2, hok k hkmem]
      rfl
    | cons k2 rs =>
      show parseCellsLoop keys symbol ind i rules
        ((' ' :: strFor k ++ [' ']) :: padPieces ((k2 :: rs).map strFor)) = _
      simp only [parseCellsLoop, hget, (trim_pad hne hh hl).1, hok k hkmem]
      exact ih (i + 1) (insertRule rules k symbol (ruleFor k)) hdrop1

lemma parseRowsLoop_rendered (keys : List Nat) (r : Ruleset) (hkne : keys ≠ []) :
    ∀ (syms : List Char) (ind : Nat) (rules : RulesMap) (alpha : List Char),
    ind ≠ 0 →
    syms.Nodup →
    (∀ c ∈ syms, isWs c = false ∧ c ≠ '|') →
    (∀ c ∈ syms, c ∉ alpha) →
    (∀ c ∈ syms, ∀ k ∈ keys, ∃ rule, lookup2 r.rules k c = some rule ∧
      isWs rule.write = false ∧ rule.write ≠ '|' ∧ rule.next_state < 2 ^ 32) →
    (∀ k ∈ keys, (lookupA rules k).isSome = true) →
    ∃ rulesF, parseRowsLoop keys ind rules alpha (syms.map (rowLine keys r)) =
      .ok ⟨rulesF, alpha ++ syms, keys⟩ ∧
      (∀ s c, lookup2 rulesF s c =
        if s ∈ keys ∧ c ∈ syms then lookup2 r.rules s c else lookup2 rules s c) := by
  intro syms
  induction syms with
  | nil =>
    intro ind rules alpha _ _ _ _ _ _
    exact ⟨rules, by simp [parseRowsLoop], fun s c => by simp⟩
  | cons sym rest ih =>
    intro ind rules alpha hind hnd hprops hdisj hbound hkeys
    obtain ⟨hws, hpipe⟩ := hprops sym (List.mem_cons_self _ _)
    have hbsym := hbound sym (List.mem_cons_self _ _)
    have hcellfacts : ∀ st ∈ keys,
        cellText r st sym = (ruleAt r st sym).display ∧
        Rule.from_str (cellText r st sym) = .ok (ruleAt r st sym) ∧
        '|' ∉ cellText r st sym ∧ cellText r st sym ≠ [] ∧
        (∀ c, (cellText r st sym).head? = some c → isWs c = false) ∧
        (∀ c, (cellText r st sym).getLast? = some c → isWs c = false) := by
      intro st hst
      obtain ⟨rule, hrl, hrw, hrp, hr32⟩ := hbsym st hst
      obtain ⟨hceq, hreq⟩ := cellText_bound hrl
      obtain ⟨h1, h2, h3, h4⟩ := display_token hrw hrp
      refine ⟨hreq ▸ hceq, ?_, hceq ▸ h2, hceq ▸ h1, ?_, ?_⟩
      · rw [hceq, rule_from_str_display rule hr32, hreq]
      · rw [hceq]; exact h3
      · rw [hceq]; exact h4
    have hrow := row_pieces keys r sym hkne hpipe
      (fun st hst => ⟨(hcellfacts st hst).2.2.1, (hcellfacts st hst).2.2.2.1⟩)
    have htrimsym : trim [' ', sym, ' '] = [sym] := by
      have := (trim_pad (x := [sym]) (by simp)
        (fun c hc => by simpa using (by simpa using hc : sym = c) ▸ hws)
        (fun c hc => by simpa using (by simpa using hc : sym = c) ▸ hws)).1
      simpa using this
    have hcells := parseCellsLoop_pads keys sym ind
      (fun st => cellText r st sym) (fun st => ruleAt r st sym)
      (fun k hk => (hcellfacts k hk).2.1)
      (fun k hk => ⟨(hcellfacts k hk).2.2.2.1, (hcellfacts k hk).2.2.2.2.1,
        (hcellfacts k hk).2.2.2.2.2⟩)
      keys 0 rules (List.drop_zero keys)
    have hcontains : alpha.contains sym = false := by
      simpa using hdisj sym (List.mem_cons_self _ _)
    have htake : ([' ', sym, ' '] :: padPieces (keys.map (fun st => cellText r st sym))).take
        (keys.length + 1) =
        [' ', sym, ' '] :: padPieces (keys.map (fun st => cellText r st sym)) := by
      apply List.take_of_length_le
      simp [padPieces_length]
    have hstep : parseRowsLoop keys ind rules alpha
        (rowLine keys r sym :: rest.map (rowLine keys r)) =
        parseRowsLoop keys (ind + 1)
          (insertRowFold sym (fun st => ruleAt r st sym) rules keys)
          (alpha ++ [sym]) (rest.map (rowLine keys r)) := by
      simp only [parseRowsLoop]
      rw [if_neg (by rintro ⟨h0, _⟩; exact hind h0)]
      simp only [hrow, List.drop_succ_cons, List.drop_zero, htake, htrimsym, parseChar,
        hcontains, hcells]
      rfl
    have hkeys2 : ∀ k ∈ keys,
        (lookupA (insertRowFold sym (fun st => ruleAt r st sym) rules keys) k).isSome = true := by
      intro k hk
      rw [lookupA_isSome_iff, insertRowFold_map_fst, ← lookupA_isSome_iff]
      exact hkeys k hk
    obtain ⟨rulesF, hparse, hlook⟩ := ih (ind + 1)
      (insertRowFold sym (fun st => ruleAt r st sym) rules keys) (alpha ++ [sym])
      (by omega)
      (List.Nodup.of_cons hnd)
      (fun c hc => hprops c (List.mem_cons_of_mem sym hc))
      (by
        intro c hc
        simp only [List.mem_append, List.mem_singleton]
        rintro (h | rfl)
        · exact hdisj c (List.mem_cons_of_mem sym hc) h
        · exact (List.nodup_cons.mp hnd).1 hc)
      (fun c hc => hbound c (List.mem_cons_of_mem sym hc))
      hkeys2
    refine ⟨rulesF, ?_, ?_⟩
    · show parseRowsLoop keys ind rules alpha
        (rowLine keys r sym :: rest.map (rowLine keys r)) = _
      rw [hstep, hparse]
      simp
    · intro s c
      rw [hlook s c, lookup2_insertRowFold sym (fun st => ruleAt r st sym) keys rules s c hkeys]
      by_cases hs : s ∈ keys
      · by_cases hc1 : c ∈ rest
        · simp [hs, hc1]
        · by_cases hc2 : c = sym
          · subst hc2
            obtain ⟨rule, hrl, _, _, _⟩ := hbsym s hs
            have : ruleAt r s c = rule := (cellText_bound hrl).2
            simp [hs, hc1, this, hrl]
          · simp [hs, hc1, hc2]
      · simp [hs]

/-! ## Character membership of rendered lines -/

lemma not_nl_of_not_ws {c : Char} (h : isWs c = false) : c ≠ '\n' ∧ c ≠ '\r' := by
  constructor
  · rintro rfl; exact absurd h (by decide)
  · rintro rfl; exact absurd h (by decide)

lemma mem_joinSep {sep : List Char} : ∀ {ps : List (List Char)} {c : Char},
    c ∈ joinSep sep ps → c ∈ sep ∨ ∃ p ∈ ps, c ∈ p := by
  intro ps
  induction ps with
  | nil => intro c hc; simp [joinSep] at hc
  | cons p rest ih =>
    intro c hc
    cases rest with
    | nil => exact .inr ⟨p, List.mem_cons_self _ _, hc⟩
    | cons p2 rs =>
      rw [joinSep_cons sep p (by simp)] at hc
      simp only [List.mem_append] at hc
      rcases hc with (hc | hc) | hc
      · exact .inr ⟨p, List.mem_cons_self _ _, hc⟩
      · exact .inl hc
      · rcases ih hc with h | ⟨q, hq, hcq⟩
        · exact .inl h
        · exact .inr ⟨q, List.mem_cons_of_mem p hq, hcq⟩

lemma hdrLine_no_nl (keys : List Nat) : '\n' ∉ hdrLine keys := by
  intro hm
  unfold hdrLine at hm
  rcases List.mem_append.mp hm with hm | hm
  · rcases List.mem_append.mp hm with hm | hm
    · simp at hm
    · rcases mem_joinSep hm with h | ⟨p, hp, hcp⟩
      · simp at h
      · obtain ⟨k, _, rfl⟩ := List.mem_map.mp hp
        exact absurd rfl (digit_props (mem_natChars hcp)).2.2.1
  · simp at hm

lemma hdrLine_last (keys : List Nat) : (hdrLine keys).getLast? = some '|' := by
  unfold hdrLine
  exact List.getLast?_concat _

lemma mem_sepLine {keys : List Nat} {c : Char} (h : c ∈ sepLine keys) :
    c ∈ ['|', ':', '-'] := by
  unfold sepLine at h
  rcases List.mem_append.mp h with h | h
  · fin_cases h <;> simp
  · obtain ⟨x, hx, hcx⟩ := List.mem_flatten.mp h
    obtain ⟨k, _, rfl⟩ := List.mem_map.mp hx
    fin_cases hcx <;> simp

lemma sepLine_no_nl (keys : List Nat) : '\n' ∉ sepLine keys := by
  intro hm
  have := mem_sepLine hm
  simp at this

lemma sepLine_last_ne_cr (keys : List Nat) :
    (sepLine keys).getLast? ≠ some '\r' := by
  intro hd
  have := mem_sepLine (List.mem_of_mem_getLast? hd)
  simp at this

lemma rowLine_no_nl (keys : List Nat) (r : Ruleset) (symbol : Char)
    (hsym : symbol ≠ '\n')
    (hcells : ∀ st ∈ keys, '\n' ∉ cellText r st symbol) :
    '\n' ∉ rowLine keys r symbol := by
  intro hm
  rw [rowLine_eq] at hm
  rcases List.mem_append.mp hm with hm | hm
  · rcases List.mem_append.mp hm with hm | hm
    · rcases List.mem_cons.mp hm with h | h
      · exact absurd h.symm (by decide)
      · rcases List.mem_cons.mp h with h | h
        · exact absurd h.symm (by decide)
        · rcases List.mem_cons.mp h with h | h
          · exact hsym h.symm
          · simp at h
    · rcases List.mem_cons.mp hm with h | h
      · exact absurd h.symm (by decide)
      · rcases List.mem_cons.mp h with h | h
        · exact absurd h.symm (by decide)
        · rcases mem_joinSep h with h' | ⟨p, hp, hcp⟩
          · simp at h'
          · obtain ⟨st, hst, rfl⟩ := List.mem_map.mp hp
            exact hcells st hst hcp
  · simp at hm

lemma rowLine_last (keys : List Nat) (r : Ruleset) (symbol : Char) :
    (rowLine keys r symbol).getLast? = some '|' := by
  rw [rowLine_eq]
  exact List.getLast?_concat _

/-! ## Invariants established by `Ruleset::from_str` -/

lemma parseChar_shape {s : List Char} {c : Char} (h : parseChar s = some c) :
    s = [c] := by
  match s, h with
  | [x], h =>
    have : x = c := by simpa [parseChar] using h
    rw [this]

lemma rule_from_str_shape {s : List Char} {rule : Rule} (h : Rule.from_str s = .ok rule) :
    s.head? = some rule.write ∧ rule.next_state < 2 ^ 32 := by
  cases s with
  | nil => simp [Rule.from_str] at h
  | cons w t =>
    cases t with
    | nil => simp [Rule.from_str] at h
    | cons m rest =>
      simp only [Rule.from_str] at h
      split at h
      · simp at h
      · next mov hmv =>
        cases hp : parseU32 rest with
        | none => rw [hp] at h; simp at h
        | some v =>
          rw [hp] at h
          change Except.ok (Rule.mk w mov v) = Except.ok rule at h
          have heq : Rule.mk w mov v = rule := by simpa using h
          refine ⟨?_, ?_⟩
          · rw [← heq]; rfl
          · rw [← heq]
            exact parseU32_lt hp

lemma parseHeaderStates_inv : ∀ (cells : List (List Char)) (rules0 : RulesMap)
    (states0 : List Nat) (rules : RulesMap) (states : List Nat),
    parseHeaderStates cells rules0 states0 = .ok (rules, states) →
    rules0.map Prod.fst = states0 →
    states0.Nodup →
    (∀ k ∈ states0, k < 2 ^ 32) →
    (∀ p ∈ rules0, p.2 = ([] : List (Char × Rule))) →
    rules.map Prod.fst = states ∧ states.Nodup ∧ (∀ k ∈ states, k < 2 ^ 32) ∧
      (∀ p ∈ rules, p.2 = ([] : List (Char × Rule))) := by
  intro cells
  induction cells with
  | nil =>
    intro rules0 states0 rules states h h1 h2 h3 h4
    have hok : rules0 = rules ∧ states0 = states := by
      simpa [parseHeaderStates, Prod.ext_iff] using h
    obtain ⟨rfl, rfl⟩ := hok
    exact ⟨h1, h2, h3, h4⟩
  | cons cell rest ih =>
    intro rules0 states0 rules states h h1 h2 h3 h4
    simp only [parseHeaderStates] at h
    cases hp : parseU32 cell with
    | none => rw [hp] at h; simp at h
    | some st =>
      rw [hp] at h
      change (if (lookupA rules0 st).isSome = true
          then Except.error (RulesetParseError.DuplicateState st)
          else parseHeaderStates rest (rules0 ++ [(st, [])]) (states0 ++ [st]))
        = Except.ok (rules, states) at h
      split at h
      · simp at h
      · next hdup =>
        have hnotmem : st ∉ states0 := by
          rw [← h1]
          intro hm
          exact hdup ((lookupA_isSome_iff rules0 st).mpr hm)
        refine ih _ _ _ _ h (by simp [h1]) ?_ ?_ ?_
        · rw [List.nodup_append]
          refine ⟨h2, List.nodup_singleton st, ?_⟩
          intro a ha hb
          rw [List.mem_singleton] at hb
          exact hnotmem (hb ▸ ha)
        · intro k hk
          rcases List.mem_append.mp hk with hk | hk
          · exact h3 k hk
          · rw [List.mem_singleton] at hk
            exact hk ▸ parseU32_lt hp
        · intro p hp'
          rcases List.mem_append.mp hp' with hp' | hp'
          · exact h4 p hp'
          · rw [List.mem_singleton] at hp'
            rw [hp']

lemma parseCellsLoop_inv (states : List Nat) (symbol : Char) (ind : Nat) :
    ∀ (cells : List (List Char)) (i : Nat) (rules rules2 : RulesMap),
    parseCellsLoop states symbol ind i rules cells = .ok rules2 →
    (∀ cell ∈ cells, '|' ∉ cell) →
    rules2.map Prod.fst = rules.map Prod.fst ∧
    ∀ s c rule, lookup2 rules2 s c = some rule →
      lookup2 rules s c = some rule ∨
      (s ∈ states ∧ c = symbol ∧ isWs rule.write = false ∧ rule.write ≠ '|' ∧
        rule.next_state < 2 ^ 32) := by
  intro cells
  induction cells with
  | nil =>
    intro i rules rules2 h _
    have hok : rules = rules2 := by simpa [parseCellsLoop] using h
    subst hok
    exact ⟨rfl, fun s c rule hl => .inl hl⟩
  | cons cell rest ih =>
    intro i rules rules2 h hpipe
    simp only [parseCellsLoop] at h
    split at h
    · simp at h
    · next st hg =>
      split at h
      · simp at h
      · next rule hr =>
        obtain ⟨hfst, hrec⟩ := ih (i + 1) _ rules2 h
          (fun c hc => hpipe c (List.mem_cons_of_mem _ hc))
        have hwprops : isWs rule.write = false ∧ rule.write ≠ '|' ∧
            rule.next_state < 2 ^ 32 := by
          obtain ⟨hhead, h32⟩ := rule_from_str_shape hr
          have hws : isWs rule.write = false := by
            cases htc : trim cell with
            | nil => rw [htc] at hhead; simp at hhead
            | cons a as =>
              rw [htc] at hhead
              have ha : a = rule.write := by simpa using hhead
              exact ha ▸ trim_head_not_ws htc
          have hmem : rule.write ∈ cell :=
            trim_subset cell (head?_mem hhead)
          exact ⟨hws, fun hq => hpipe cell (List.mem_cons_self _ _) (hq ▸ hmem), h32⟩
        constructor
        · rw [hfst, insertRule_map_fst]
        · intro s c rl hl
          rcases hrec s c rl hl with hbase | hnew
          · rw [lookup2_insertRule] at hbase
            split at hbase
            · next hcond =>
              obtain ⟨hs, hc, _⟩ := hcond
              have hrl : rl = rule := (Option.some.inj hbase).symm
              subst hrl
              exact .inr ⟨hs ▸ List.get?_mem hg, hc, hwprops⟩
            · exact .inl hbase
          · exact .inr hnew

lemma mem_cells_of_line {line cell : List Char} {n : Nat}
    (h : cell ∈ ((splitOnChar '|' (trimEndPipes line)).drop 1).take n) :
    '|' ∉ cell ∧ ∀ c ∈ cell, c ∈ line := by
  have hmem : cell ∈ splitOnChar '|' (trimEndPipes line) :=
    List.drop_subset 1 _ (List.take_subset n _ h)
  refine ⟨mem_splitOnChar_no_sep hmem, fun c hc => ?_⟩
  exact trimEndPipes_subset line (mem_of_mem_splitOnChar hmem hc)

lemma parseRowsLoop_inv (states : List Nat) :
    ∀ (lsrows : List (List Char)) (ind : Nat) (rules : RulesMap) (alpha : List Char)
      (r : Ruleset),
    parseRowsLoop states ind rules alpha lsrows = .ok r →
    (∀ l ∈ lsrows, '\n' ∉ l) →
    alpha.Nodup →
    r.states = states ∧
    r.rules.map Prod.fst = rules.map Prod.fst ∧
    r.alphabet.Nodup ∧
    (∀ x ∈ alpha, x ∈ r.alphabet) ∧
    (∀ c ∈ r.alphabet, c ∈ alpha ∨ (isWs c = false ∧ c ≠ '|' ∧ c ≠ '\n')) ∧
    (∀ s c rule, lookup2 r.rules s c = some rule →
      lookup2 rules s c = some rule ∨
      (s ∈ states ∧ c ∈ r.alphabet ∧ isWs rule.write = false ∧ rule.write ≠ '|' ∧
        rule.next_state < 2 ^ 32)) := by
  intro lsrows
  induction lsrows with
  | nil =>
    intro ind rules alpha r h _ hand
    have hok : Ruleset.mk rules alpha states = r := by
      simpa [parseRowsLoop] using h
    subst hok
    exact ⟨rfl, rfl, hand, fun x hx => hx, fun c hc => .inl hc, fun s c rule hl => .inl hl⟩
  | cons line rest ih =>
    intro ind rules alpha r h hnl hand
    simp only [parseRowsLoop] at h
    split at h
    · exact ih _ _ _ _ h (fun l hl => hnl l (List.mem_cons_of_mem _ hl)) hand
    · split at h
      · simp at h
      · next symCell ruleCells hcells =>
        split at h
        · simp at h
        · next symbol hsym =>
          split at h
          · simp at h
          · next hdup =>
            split at h
            · simp at h
            · next rules2 hloop =>
              -- facts about the symbol
              have hsymfacts : isWs symbol = false ∧ symbol ≠ '|' := by
                have hshape := parseChar_shape hsym
                have hws : isWs symbol = false := trim_head_not_ws hshape
                have hmem : symbol ∈ symCell := trim_subset _ (by rw [hshape]; simp)
                have hsc : symCell ∈ (symCell :: ruleCells) := List.mem_cons_self _ _
                rw [← hcells] at hsc
                exact ⟨hws, fun hq => (mem_cells_of_line hsc).1 (hq ▸ hmem)⟩
              have hsymnotin : symbol ∉ alpha := by
                intro hm
                exact hdup (by simpa using hm)
              have hpipes : ∀ cell ∈ ruleCells, '|' ∉ cell := by
                intro cell hc
                have hm : cell ∈ (symCell :: ruleCells) := List.mem_cons_of_mem _ hc
                rw [← hcells] at hm
                exact (mem_cells_of_line hm).1
              obtain ⟨hfst2, hrec2⟩ := parseCellsLoop_inv states symbol ind
                ruleCells 0 rules rules2 hloop hpipes
              obtain ⟨hst, hfst, hnd, hsub, halpha, hbound⟩ := ih _ _ _ _ h
                (fun l hl => hnl l (List.mem_cons_of_mem _ hl))
                (by
                  rw [List.nodup_append]
                  refine ⟨hand, List.nodup_singleton symbol, ?_⟩
                  intro a ha hb
                  rw [List.mem_singleton] at hb
                  exact hsymnotin (hb ▸ ha))
              refine ⟨hst, by rw [hfst, hfst2], hnd, ?_, ?_, ?_⟩
              · intro x hx
                exact hsub x (List.mem_append_left _ hx)
              · intro c hc
                rcases halpha c hc with hc' | hc'
                · rcases List.mem_append.mp hc' with hc' | hc'
                  · exact .inl hc'
                  · rw [List.mem_singleton] at hc'
                    subst hc'
                    exact .inr ⟨hsymfacts.1, hsymfacts.2, (not_nl_of_not_ws hsymfacts.1).1⟩
                · exact .inr hc'
              · intro s c rule hl
                rcases hbound s c rule hl with hbase | hnew
                · rcases hrec2 s c rule hbase with hb | ⟨hs, hc, hw⟩
                  · exact .inl hb
                  · refine .inr ⟨hs, ?_, hw⟩
                    rw [hc]
                    exact hsub symbol (List.mem_append_right _ (by simp))
                · exact .inr hnew

lemma lookupA_mem {α β : Type} [DecidableEq α] :
    ∀ {l : List (α × β)} {k : α} {v : β}, lookupA l k = some v → (k, v) ∈ l := by
  intro l
  induction l with
  | nil => intro k v h; simp [lookupA] at h
  | cons p rs ih =>
    intro k v h
    obtain ⟨a, b⟩ := p
    by_cases hax : a = k
    · subst hax
      simp only [lookupA, if_pos rfl] at h
      have hb : b = v := by simpa using h
      subst hb
      exact List.mem_cons_self _ _
    · simp only [lookupA, if_neg hax] at h
      exact List.mem_cons_of_mem _ (ih h)

/-- Invariants of a successfully parsed `Ruleset`. -/
lemma from_str_inv {text : List Char} {r : Ruleset} (h : Ruleset.from_str text = .ok r) :
    r.rules.map Prod.fst = r.states ∧ r.states.Nodup ∧ (∀ k ∈ r.states, k < 2 ^ 32) ∧
    r.alphabet.Nodup ∧
    (∀ c ∈ r.alphabet, isWs c = false ∧ c ≠ '|' ∧ c ≠ '\n') ∧
    (∀ s c rule, lookup2 r.rules s c = some rule →
      s ∈ r.states ∧ c ∈ r.alphabet ∧ isWs rule.write = false ∧ rule.write ≠ '|' ∧
      rule.next_state < 2 ^ 32) := by
  unfold Ruleset.from_str at h
  split at h
  · simp at h
  · next header body hdrop =>
    split at h
    · simp at h
    · next rules1 states1 hheader =>
      obtain ⟨hfst1, hnd1, h32, hempty⟩ := parseHeaderStates_inv _ _ _ _ _ hheader
        rfl List.nodup_nil (by simp) (by simp)
      have hnone : ∀ s c, lookup2 rules1 s c = none := by
        intro s c
        unfold lookup2
        cases hla : lookupA rules1 s with
        | none => rfl
        | some m =>
          have hm : (s, m) ∈ rules1 := lookupA_mem hla
          have hme : m = [] := hempty (s, m) hm
          subst hme
          rfl
      have hbody : ∀ l ∈ body, '\n' ∉ l := by
        intro l hl
        have hlm : l ∈ linesOf text := by
          have hsub := List.dropWhile_sublist
            (fun l : List Char => (trim l).isEmpty) (l := linesOf text)
          rw [hdrop] at hsub
          exact hsub.subset (List.mem_cons_of_mem _ hl)
        unfold linesOf at hlm
        split at hlm
        · simp at hlm
        · simp only at hlm
          obtain ⟨p, hp, rfl⟩ := List.mem_map.mp hlm
          have hpm : p ∈ splitOnChar '\n' text := by
            split at hp
            · exact (List.dropLast_sublist _).subset hp
            · exact hp
          intro hnl
          have : '\n' ∈ p := by
            unfold stripCR at hnl
            split at hnl
            · exact (List.dropLast_sublist p).subset hnl
            · exact hnl
          exact mem_splitOnChar_no_sep hpm this
      obtain ⟨hst, hfst, hnd, _, halpha, hbound⟩ :=
        parseRowsLoop_inv states1 body 0 rules1 [] r h hbody List.nodup_nil
      refine ⟨by rw [hfst, hfst1, hst], hst ▸ hnd1, hst ▸ h32, hnd, ?_, ?_⟩
      · intro c hc
        rcases halpha c hc with hc' | hc'
        · simp at hc'
        · exact hc'
      · intro s c rule hl
        rcases hbound s c rule hl with hb | ⟨hs, hc, hw⟩
        · rw [hnone s c] at hb; simp at hb
        · exact ⟨hst ▸ hs, hc, hw⟩

/-! ## The render/re-parse round trip -/

lemma mem_dropWhile_of_neg {p : Char → Bool} : ∀ {l : List Char} {c : Char},
    c ∈ l → p c = false → c ∈ l.dropWhile p := by
  intro l
  induction l with
  | nil => intro c hc _; simp at hc
  | cons a as ih =>
    intro c hc hp
    rw [List.dropWhile_cons]
    split
    · next hpa =>
      rcases List.mem_cons.mp hc with h | h
      · rw [← h] at hpa
        rw [hp] at hpa
        exact absurd hpa (by simp)
      · exact ih h hp
    · exact hc

lemma mem_trimLeft_of_not_ws : ∀ {s : List Char} {c : Char},
    c ∈ s → isWs c = false → c ∈ trimLeft s := by
  intro s
  induction s with
  | nil => intro c hc _; simp at hc
  | cons a as ih =>
    intro c hc hp
    simp only [trimLeft]
    split
    · next hpa =>
      rcases List.mem_cons.mp hc with h | h
      · rw [← h] at hpa
        rw [hp] at hpa
        exact absurd hpa (by simp)
      · exact ih h hp
    · exact hc

lemma mem_trim_of_not_ws {s : List Char} {c : Char} (hc : c ∈ s)
    (hp : isWs c = false) : c ∈ trim s := by
  have h1 : c ∈ trimRight s := by
    unfold trimRight
    rw [List.mem_reverse]
    exact mem_dropWhile_of_neg (by rwa [List.mem_reverse]) hp
  exact mem_trimLeft_of_not_ws h1 hp

lemma display_no_nl {rule : Rule} (hw : isWs rule.write = false) :
    '\n' ∉ Rule.display rule := by
  obtain ⟨w, m, n⟩ := rule
  have hw' : isWs w = false := hw
  show '\n' ∉ w :: Move.toChar m :: natChars n
  intro hm
  rcases List.mem_cons.mp hm with h | h
  · rw [← h] at hw'
    exact absurd hw' (by decide)
  · rcases List.mem_cons.mp h with h | h
    · cases m <;> exact absurd h.symm (by decide)
    · exact absurd rfl (digit_props (mem_natChars h)).2.2.1

/-- Re-parsing the rendered text of a well-formed, fully bound `Ruleset`
succeeds, with the original alphabet, the renderer's key enumeration as the
state order, and the original bindings. -/
lemma parse_display_ok (r : Ruleset) (keys : List Nat)
    (hperm : keys.Perm r.states)
    (hkne : keys ≠ [])
    (hnd : r.states.Nodup)
    (h32 : ∀ k ∈ r.states, k < 2 ^ 32)
    (hand : r.alphabet.Nodup)
    (halpha : ∀ c ∈ r.alphabet, isWs c = false ∧ c ≠ '|' ∧ c ≠ '\n')
    (hrules : ∀ s c rule, lookup2 r.rules s c = some rule →
      isWs rule.write = false ∧ rule.write ≠ '|' ∧ rule.next_state < 2 ^ 32)
    (hfull : ∀ s ∈ r.states, ∀ c ∈ r.alphabet, (lookup2 r.rules s c).isSome = true) :
    ∃ r2, Ruleset.from_str (Ruleset.display keys r) = .ok r2 ∧
      r2.alphabet = r.alphabet ∧ r2.states = keys ∧
      (∀ s c, lookup2 r2.rules s c =
        if s ∈ r.states ∧ c ∈ r.alphabet then lookup2 r.rules s c else none) := by
  have hkmem : ∀ k, k ∈ keys ↔ k ∈ r.states := fun k => hperm.mem_iff
  have hknd : keys.Nodup := hperm.nodup_iff.mpr hnd
  have hk32 : ∀ k ∈ keys, k < 2 ^ 32 := fun k hk => h32 k ((hkmem k).mp hk)
  have hboundAt : ∀ c ∈ r.alphabet, ∀ k ∈ keys, ∃ rule,
      lookup2 r.rules k c = some rule ∧ isWs rule.write = false ∧
      rule.write ≠ '|' ∧ rule.next_state < 2 ^ 32 := by
    intro c hc k hk
    have hs := hfull k ((hkmem k).mp hk) c hc
    cases hl : lookup2 r.rules k c with
    | none => rw [hl] at hs; simp at hs
    | some rule =>
      obtain ⟨h1, h2, h3⟩ := hrules k c rule hl
      exact ⟨rule, rfl, h1, h2, h3⟩
  have hcellnl : ∀ c ∈ r.alphabet, ∀ st ∈ keys, '\n' ∉ cellText r st c := by
    intro c hc st hst
    obtain ⟨rule, hrl, hw, _, _⟩ := hboundAt c hc st hst
    rw [(cellText_bound hrl).1]
    exact display_no_nl hw
  have hlines : linesOf (Ruleset.display keys r) =
      hdrLine keys :: sepLine keys :: r.alphabet.map (rowLine keys r) := by
    rw [display_eq_joinNL]
    apply linesOf_joinNL
    · intro l hl
      rcases List.mem_cons.mp hl with h | h
      · exact h ▸ hdrLine_no_nl keys
      · rcases List.mem_cons.mp h with h | h
        · exact h ▸ sepLine_no_nl keys
        · obtain ⟨c, hc, rfl⟩ := List.mem_map.mp h
          exact rowLine_no_nl keys r c (not_nl_of_not_ws (halpha c hc).1).1
            (fun st hst => hcellnl c hc st hst)
    · intro l hl
      rcases List.mem_cons.mp hl with h | h
      · rw [h, hdrLine_last]; simp
      · rcases List.mem_cons.mp h with h | h
        · exact h ▸ sepLine_last_ne_cr keys
        · obtain ⟨c, hc, rfl⟩ := List.mem_map.mp h
          rw [rowLine_last]; simp
  have hdw : (linesOf (Ruleset.display keys r)).dropWhile (fun l => (trim l).isEmpty) =
      hdrLine keys :: sepLine keys :: r.alphabet.map (rowLine keys r) := by
    rw [hlines, List.dropWhile_cons]
    have hpm : ('|' : Char) ∈ trim (hdrLine keys) := by
      apply mem_trim_of_not_ws
      · show '|' ∈ '|' :: _
        exact List.mem_cons_self _ _
      · decide
    have : (trim (hdrLine keys)).isEmpty = false := by
      cases htr : trim (hdrLine keys) with
      | nil => rw [htr] at hpm; simp at hpm
      | cons a as => rfl
    rw [if_neg (by simp [this])]
  have hrules0 : (keys.map (fun k => (k, ([] : List (Char × Rule))))).map Prod.fst = keys := by
    rw [List.map_map]
    exact List.map_id _
  have hkeys0 : ∀ k ∈ keys,
      (lookupA (keys.map (fun k => (k, ([] : List (Char × Rule))))) k).isSome = true := by
    intro k hk
    rw [lookupA_isSome_iff, hrules0]
    exact hk
  obtain ⟨rulesF, hparse, hlook⟩ := parseRowsLoop_rendered keys r hkne r.alphabet 1
    (keys.map (fun k => (k, []))) [] (by omega) hand
    (fun c hc => ⟨(halpha c hc).1, (halpha c hc).2.1⟩)
    (fun c _ => List.not_mem_nil c)
    hboundAt hkeys0
  refine ⟨⟨rulesF, r.alphabet, keys⟩, ?_, rfl, rfl, ?_⟩
  · unfold Ruleset.from_str
    rw [hdw]
    show (match parseHeaderStates
        (((splitOnChar '|' (trimEndPipes (hdrLine keys))).drop 2).map trim) [] [] with
      | .error e => Except.error e
      | .ok (rules, states) => parseRowsLoop states 0 rules []
          (sepLine keys :: r.alphabet.map (rowLine keys r))) = _
    rw [header_pieces keys hkne,
      parseHeaderStates_natChars keys [] [] hk32 hknd rfl (fun k _ => List.not_mem_nil k)]
    show parseRowsLoop keys 0 (keys.map (fun k => (k, []))) []
        (sepLine keys :: r.alphabet.map (rowLine keys r)) = _
    simp only [parseRowsLoop]
    rw [if_pos (⟨trivial, by simp [sepLine_contains keys]⟩ :
      (True ∧ (containsSeq [':', '-'] (sepLine keys) ||
        containsSeq ['-', '-'] (sepLine keys)) = true)), hparse]
    simp
  · intro s c
    rw [hlook s c]
    by_cases hs : s ∈ keys
    · have hs2 : s ∈ r.states := (hkmem s).mp hs
      by_cases hc : c ∈ r.alphabet
      · simp [hs, hs2, hc]
      · simp [hs, hs2, hc, lookup2_empty_inners]
    · have hs2 : s ∉ r.states := fun h => hs ((hkmem s).mpr h)
      simp [hs, hs2, lookup2_empty_inners]

/-! ## C4 and C5: the ruleset render/re-parse round trip -/

/-- A fully bound two-state table. -/
def twoStateTable : String := "| | 0 | 1 |\n| a | a>1 | b<0 |\n| b | _!0 | a>0 |"

/-- The parse of `twoStateTable`. -/
def twoStateRS : Ruleset :=
  ⟨[(0, [('a', ⟨'a', Move.Right, 1⟩), ('b', ⟨'_', Move.Stop, 0⟩)]),
    (1, [('a', ⟨'b', Move.Left, 0⟩), ('b', ⟨'a', Move.Right, 0⟩)])],
   ['a', 'b'], [0, 1]⟩

/-- Refuting input for C4: `Display for Ruleset` iterates `self.rules.keys()`
— the `HashMap`'s unspecified enumeration, modelled here by an explicit
permutation of the stored keys — not `self.states`.  Rendering the parsed
two-state table with the keys enumerated as `[1, 0]` and re-parsing yields
`states() = [1, 0]`, not the original `[0, 1]`. -/
theorem c4_counterexample :
    Ruleset.from_str twoStateTable.data = .ok twoStateRS ∧
    List.Perm [1, 0] (twoStateRS.rules.map Prod.fst) ∧
    (Ruleset.from_str (Ruleset.display [1, 0] twoStateRS)).map Ruleset.states
      = .ok [1, 0] ∧
    twoStateRS.states = [0, 1] ∧ ([1, 0] : List Nat) ≠ [0, 1] := by
  refine ⟨by decide, by decide, by decide, by decide, by decide⟩

/-- C4 (amended): for every parsed Ruleset with at least one state and a
fully bound transition function, re-parsing its rendering succeeds,
reproduces the alphabet sequence exactly in order, and yields a states()
sequence equal to the key enumeration the renderer used — a permutation of
the original states(), equal to it only when the map happens to iterate in
insertion order.  (Unbound cells render as blank padding, which does not
re-parse, and a zero-state table's rendering does not re-parse either, so
both exclusions are necessary.) -/
theorem c4_display_roundtrip_orders (text : List Char) (r : Ruleset) (keys : List Nat)
    (hparse : Ruleset.from_str text = .ok r)
    (hperm : keys.Perm r.states)
    (hkne : keys ≠ [])
    (hfull : fullyBoundB r = true) :
    ∃ r2, Ruleset.from_str (Ruleset.display keys r) = .ok r2 ∧
      r2.alphabet = r.alphabet ∧ r2.states = keys := by
  obtain ⟨hfst, hnd, h32, hand, halpha, hbound⟩ := from_str_inv hparse
  have hfull' : ∀ s ∈ r.states, ∀ c ∈ r.alphabet, (lookup2 r.rules s c).isSome = true := by
    intro s hs c hc
    simp only [fullyBoundB, List.all_eq_true] at hfull
    exact hfull s hs c hc
  obtain ⟨r2, h1, h2, h3, _⟩ := parse_display_ok r keys hperm hkne hnd h32 hand halpha
    (fun s c rule hl => ⟨(hbound s c rule hl).2.2.1, (hbound s c rule hl).2.2.2.1,
      (hbound s c rule hl).2.2.2.2⟩)
    hfull'
  exact ⟨r2, h1, h2, h3⟩

/-- Witness for C4 at the two-state table rendered in insertion order. -/
theorem c4_display_roundtrip_orders_witness :
    Ruleset.from_str twoStateTable.data = .ok twoStateRS ∧
    fullyBoundB twoStateRS = true ∧
    (Ruleset.from_str (Ruleset.display [0, 1] twoStateRS)).isOk = true := by
  refine ⟨by decide, by decide, ?_⟩
  obtain ⟨r2, h1, _, _⟩ := c4_display_roundtrip_orders twoStateTable.data twoStateRS [0, 1]
    (by decide) (by decide) (by decide) (by decide)
  rw [h1]
  rfl

/-- Refuting input for C5: the degenerate table `"|  |"` parses successfully
to a ruleset with no states and no alphabet, which is vacuously fully
bound; its rendering has an empty header cell area (`"|   | |"`) whose
re-parse fails with `InvalidState ""`, so the re-parse does not succeed as
the claim states.  The renderer's key enumeration is necessarily the empty
list here. -/
theorem c5_counterexample :
    Ruleset.from_str "|  |".data = .ok ⟨[], [], []⟩ ∧
    fullyBoundB ⟨[], [], []⟩ = true ∧
    Ruleset.from_str (Ruleset.display [] ⟨[], [], []⟩) = .error (.InvalidState []) := by
  refine ⟨by decide, by decide, by decide⟩

/-- C5 (amended): for every table text whose parse succeeds with at least
one header state and a fully bound transition function, and every key
enumeration the renderer may use (any permutation of the states), parsing
the rendering of the parsed ruleset succeeds and yields a ruleset whose
`find(state, symbol)` result equals that of the directly parsed ruleset for
every `(state, symbol)` pair. -/
theorem c5_display_roundtrip_find (text : List Char) (r : Ruleset) (keys : List Nat)
    (hparse : Ruleset.from_str text = .ok r)
    (hperm : keys.Perm r.states)
    (hkne : keys ≠ [])
    (hfull : fullyBoundB r = true) :
    ∃ r2, Ruleset.from_str (Ruleset.display keys r) = .ok r2 ∧
      ∀ s c, r2.find s c = r.find s c := by
  obtain ⟨hfst, hnd, h32, hand, halpha, hbound⟩ := from_str_inv hparse
  have hfull' : ∀ s ∈ r.states, ∀ c ∈ r.alphabet, (lookup2 r.rules s c).isSome = true := by
    intro s hs c hc
    simp only [fullyBoundB, List.all_eq_true] at hfull
    exact hfull s hs c hc
  obtain ⟨r2, h1, _, _, hlook⟩ := parse_display_ok r keys hperm hkne hnd h32 hand halpha
    (fun s c rule hl => ⟨(hbound s c rule hl).2.2.1, (hbound s c rule hl).2.2.2.1,
      (hbound s c rule hl).2.2.2.2⟩)
    hfull'
  refine ⟨r2, h1, ?_⟩
  intro s c
  unfold Ruleset.find
  rw [hlook s c]
  by_cases hreg : s ∈ r.states ∧ c ∈ r.alphabet
  · rw [if_pos hreg]
  · rw [if_neg hreg]
    cases hl : lookup2 r.rules s c with
    | none => rfl
    | some rule =>
      obtain ⟨hs, hc, _⟩ := hbound s c rule hl
      exact absurd ⟨hs, hc⟩ hreg

/-- Witness for C5 at the two-state table rendered in reversed key order. -/
theorem c5_display_roundtrip_find_witness :
    Ruleset.from_str twoStateTable.data = .ok twoStateRS ∧
    fullyBoundB twoStateRS = true ∧
    (Ruleset.from_str (Ruleset.display [1, 0] twoStateRS)).isOk = true := by
  refine ⟨by decide, by decide, ?_⟩
  obtain ⟨r2, h1, _⟩ := c5_display_roundtrip_find twoStateTable.data twoStateRS [1, 0]
    (by decide) (by decide) (by decide) (by decide)
  rw [h1]
  rfl

end Tvp
